import Mathlib

/-
Shallow embedding of the zhang ledger core (crate zhang-core) and a
verification of its natural-language specification.

Source files embedded here:
  src/core/src/ledger.rs        (Ledger::sort_directives_datetime,
                                 Ledger::process meta merging,
                                 Ledger::is_transaction_balanced)
  src/core/src/domains/mod.rs   (Operations: single_account_balances,
                                 get_price, update_account_lot,
                                 insert_or_update_account,
                                 insert_transaction_posting,
                                 insert_or_update_options, trx_tags, trx_links)
  src/core/src/store/mod.rs     (Store and its row types)

Modelling conventions:
  * BigDecimal (arbitrary-precision decimal) is modelled by ℚ; equality of
    BigDecimal is numeric, matching ℚ equality.
  * chrono datetimes are modelled by a naive (date, time-of-day) pair `DT`
    ordered lexicographically; `naive_local().date()` is the `date` field.
  * HashMap / BTreeMap tables are modelled by association lists with
    first-occurrence lookup and in-place replacement, as built by the code
    (keys are unique by construction).
  * Rust's stable `sort_by` / itertools `sorted_by_key` are modelled by the
    insertion sort that `slice::sort_by` runs on short slices: an element
    moves left past its predecessor exactly when the comparator returns
    `Less`.  For a comparator that is a total preorder this is THE stable
    sort; for an inconsistent comparator Rust documents the order as
    unspecified, and this model reproduces the behaviour pinned by the
    repository's own unit tests.
  * Uuid::new_v4 (a random fresh id) has no observable effect on any claim;
    the posting `id` field is therefore omitted from `PostingDomain`.
  * A Rust panic (`expect` / `unwrap`) is modelled by `Option.none` on the
    function's result where a claim is about reaching or avoiding it.
-/

namespace Zhang

/-! ## Basic data model -/

/-- Naive local datetime: a calendar date (as a day number) and a
time-of-day (as a second number), compared lexicographically.  Models
chrono's NaiveDateTime; `naive_local().date()` is the `date` projection. -/
structure DT where
  date : Nat
  time : Nat
deriving DecidableEq

/-- Strict chronological order on datetimes (chrono's `Ord`). -/
def dtlt (x y : DT) : Prop :=
  x.date < y.date ∨ (x.date = y.date ∧ x.time < y.time)

instance (x y : DT) : Decidable (dtlt x y) := by
  unfold dtlt; infer_instance

/-- Non-strict chronological order on datetimes (chrono's `le`). -/
def dtle (x y : DT) : Prop :=
  x.date < y.date ∨ (x.date = y.date ∧ x.time ≤ y.time)

instance (x y : DT) : Decidable (dtle x y) := by
  unfold dtle; infer_instance

abbrev Currency := String

/-- An amount: a decimal number together with its commodity. -/
structure Amount where
  number : ℚ
  currency : Currency
deriving DecidableEq

/-- The five account types of the ledger. -/
inductive AccountType
  | Assets
  | Liabilities
  | Equity
  | Income
  | Expenses
deriving DecidableEq

def AccountType.asString : AccountType → String
  | .Assets => "Assets"
  | .Liabilities => "Liabilities"
  | .Equity => "Equity"
  | .Income => "Income"
  | .Expenses => "Expenses"

/-- An account: its type and its full canonical name.  Two accounts are
equal iff their canonical data is equal (zhang-ast `Account`). -/
structure Account where
  account_type : AccountType
  name : String
deriving DecidableEq

def parseAccountType : String → Option AccountType
  | "Assets" => some .Assets
  | "Liabilities" => some .Liabilities
  | "Equity" => some .Equity
  | "Income" => some .Income
  | "Expenses" => some .Expenses
  | _ => none

/-- Split a character list at every occurrence of `sep` (the semantics of
`str::split`); adjacent separators yield empty segments. -/
def splitSegs (sep : Char) : List Char → List (List Char)
  | [] => [[]]
  | c :: rest =>
    match splitSegs sep rest with
    | [] => [[]]
    | seg :: segs =>
      if c = sep then [] :: seg :: segs else (c :: seg) :: segs

/-- Modelled from the spec: zhang-ast `Account::from_str` is not under
src/.  Per §3 an account is a hierarchical name `Type:Segment1:Segment2…`
whose head is one of the five account types; parsing fails on anything
else (yielding `InvalidAccount` at the call sites). -/
def parseAccount (s : String) : Option Account :=
  match splitSegs ':' s.toList with
  | [] => none
  | ty :: segs =>
    match parseAccountType (String.mk ty) with
    | none => none
    | some t =>
      if segs.length > 0 && segs.all (fun seg => decide (seg ≠ [])) then
        some ⟨t, s⟩
      else none

/-! ## Rounding (spec §4.1) -/

/-- Rounding modes recognised by the ledger options. -/
inductive Rounding
  | RoundUp
  | RoundDown
deriving DecidableEq

def Rounding.isUp : Rounding → Bool
  | .RoundUp => true
  | .RoundDown => false

/-- Ten to an integer power, as a rational. -/
def pow10 (n : ℤ) : ℚ :=
  if 0 ≤ n then (10 : ℚ) ^ n.toNat else 1 / (10 : ℚ) ^ (-n).toNat

/-- Modelled from the spec: `BigDecimalExt::round_with` (crate util, not
under src/).  Per §4.1 it rounds to `n` fractional digits with RoundUp
(away from zero) or RoundDown (toward zero); half-away-from-zero is
explicitly not used. -/
def roundWith (x : ℚ) (n : ℤ) (up : Bool) : ℚ :=
  let scale := pow10 n
  if up then
    if 0 ≤ x then (⌈x * scale⌉ : ℚ) / scale else -((⌈-x * scale⌉ : ℚ) / scale)
  else
    if 0 ≤ x then (⌊x * scale⌋ : ℚ) / scale else -((⌊-x * scale⌋ : ℚ) / scale)

/-! ## Store row types (src/core/src/store/mod.rs, domains/schemas) -/

inductive AccountStatus
  | Open
  | Close
deriving DecidableEq

/-- Stored account row.  `rtype` is the source's `r#type` field and
`aliasName` the source's `alias` field (both renamed: Lean keywords). -/
structure AccountDomain where
  date : DT
  rtype : String
  name : String
  status : AccountStatus
  aliasName : Option String
deriving DecidableEq

structure CommodityDomain where
  name : String
  precision : ℤ
  pfx : Option String
  sfx : Option String
  rounding : Option String
deriving DecidableEq

structure PriceDomain where
  datetime : DT
  commodity : Currency
  amount : ℚ
  target_commodity : Currency
deriving DecidableEq

structure CommodityLotRecord where
  commodity : Currency
  datetime : Option DT
  amount : ℚ
  price : Option Amount
deriving DecidableEq

inductive Flag
  | Completed
  | Pending
deriving DecidableEq

structure SpanInfo where
  start : Nat
  stop : Nat
  content : String
  filename : Option String
deriving DecidableEq

structure TransactionHeaderDomain where
  id : String
  sequence : ℤ
  datetime : DT
  flag : Flag
  payee : Option String
  narration : Option String
  span : SpanInfo
  tags : List String
  links : List String
deriving DecidableEq

/-- A stored posting.  The random `id : Uuid` of the source row is omitted
(`Uuid::new_v4()` is fresh randomness that no claim observes). -/
structure PostingDomain where
  trx_id : String
  trx_sequence : ℤ
  trx_datetime : DT
  account : Account
  unit : Option Amount
  cost : Option Amount
  inferred_amount : Amount
  previous_amount : Amount
  after_amount : Amount
deriving DecidableEq

inductive DocumentType
  | Trx (id : String)
  | Account (account : Account)
deriving DecidableEq

structure DocumentDomain where
  datetime : DT
  document_type : DocumentType
  filename : Option String
  path : String
deriving DecidableEq

structure MetaDomain where
  meta_type : String
  type_identifier : String
  key : String
  value : String
deriving DecidableEq

inductive ErrorType
  | AccountBalanceCheckError
  | AccountDoesNotExist
  | AccountClosed
  | TransactionNotBalance
  | TransactionHasMultipleImplicitPosting
  | TransactionWithoutAccount
  | CommodityDoesNotDefine
  | LotNotFound
  | ErrCloseNonZeroAccount
deriving DecidableEq

structure ErrorDomain where
  error_type : ErrorType
  metas : List (String × String)
deriving DecidableEq

/-- The in-memory relational store (src/core/src/store/mod.rs).  Maps are
association lists with unique keys; all lists preserve insertion order. -/
structure Store where
  options : List (String × String)
  accounts : List (Account × AccountDomain)
  commodities : List (String × CommodityDomain)
  transactions : List (String × TransactionHeaderDomain)
  postings : List PostingDomain
  prices : List PriceDomain
  commodity_lots : List (Account × List CommodityLotRecord)
  documents : List DocumentDomain
  metas : List MetaDomain
  errors : List ErrorDomain
deriving DecidableEq

inductive ZhangError
  | InvalidAccount
deriving DecidableEq

/-- First-occurrence association-list lookup (HashMap `get`). -/
def alookup {β : Type} {α : Type} [DecidableEq α] (k : α) : List (α × β) → Option β
  | [] => none
  | (k0, v) :: rest => if k0 = k then some v else alookup k rest

/-! ## The stable sort used by the orchestrator and the query layer

Rust's `slice::sort_by` and itertools' `sorted_by_key` are stable sorts:
an element ends up before another exactly when the comparator orders it
strictly earlier or when it preceded it in the input.  We model them by
the insertion sort that `slice::sort_by` itself runs on short slices:
scanning left to right, each element shifts left past its predecessor
exactly while the comparator on (element, predecessor) returns `Less`. -/

/-- Insert `x` into the reversed already-sorted prefix `acc` (whose head is
the rightmost element), shifting `x` left past `e` exactly while `lt x e`. -/
def insRev {α : Type} (lt : α → α → Bool) (x : α) : List α → List α
  | [] => [x]
  | e :: rest => if lt x e then e :: insRev lt x rest else x :: e :: rest

/-- Tail loop of the insertion sort: `acc` is the reversed sorted prefix. -/
def sortCore {α : Type} (lt : α → α → Bool) : List α → List α → List α
  | acc, [] => acc.reverse
  | acc, x :: xs => sortCore lt (insRev lt x acc) xs

/-- The stable sort (Rust `slice::sort_by` with `is_less x y ↔ lt x y`). -/
def rustSort {α : Type} (lt : α → α → Bool) (l : List α) : List α :=
  sortCore lt [] l

/-! ## Directive stream and canonical ordering (ledger.rs) -/

inductive DirectiveType
  | Open
  | Close
  | Commodity
  | Transaction
  | BalancePad
  | BalanceCheck
  | Note
  | Document
  | Price
  | Event
  | Custom
  | Opt
  | Comment
deriving DecidableEq

/-- A spanned directive as seen by `sort_directives_datetime`: only its
datetime and its directive type are inspected by the comparator; the
`payload` field abstracts the rest of the directive and its span. -/
structure SpannedDirective where
  datetime : Option DT
  dtype : DirectiveType
  payload : Nat
deriving DecidableEq

def isBalanceType : DirectiveType → Bool
  | .BalancePad => true
  | .BalanceCheck => true
  | _ => false

/-- chrono `NaiveDateTime::cmp`. -/
def dtCompare (x y : DT) : Ordering :=
  if x.date < y.date then .lt
  else if y.date < x.date then .gt
  else if x.time < y.time then .lt
  else if y.time < x.time then .gt
  else .eq

/-- The comparator of `Ledger::sort_directives_datetime` (ledger.rs
lines 107-118), verbatim: dated directives compare chronologically, with
BalancePad/BalanceCheck ordered before every other kind at equal
datetime; any pair involving a missing datetime compares `Greater`. -/
def cmpDirectives (a b : SpannedDirective) : Ordering :=
  match a.datetime, b.datetime with
  | some x, some y =>
    match dtCompare x y with
    | .eq =>
      match isBalanceType a.dtype, isBalanceType b.dtype with
      | true, true => .eq
      | true, false => .lt
      | false, true => .gt
      | false, false => .eq
    | o => o
  | _, _ => .gt

def ltDirective (a b : SpannedDirective) : Bool :=
  decide (cmpDirectives a b = .lt)

/-- `Ledger::sort_directives_datetime`: stable sort by the comparator. -/
def sortDirectivesDatetime (l : List SpannedDirective) : List SpannedDirective :=
  rustSort ltDirective l

/-! ## Transaction balancing (ledger.rs `is_transaction_balanced`) -/

/-- A posting of a not-yet-folded transaction, as far as the inventory
computation inspects it: its account name and its (possibly elided) unit. -/
structure TxnPosting where
  account : String
  unit : Option Amount
deriving DecidableEq

/-- A transaction directive, as far as `is_transaction_balanced` inspects it. -/
structure Txn where
  postings : List TxnPosting
deriving DecidableEq

/-- Add `n` to the running total of currency `c`, keeping first-occurrence
order of currencies. -/
def addToInventory (inv : List (Currency × ℚ)) (c : Currency) (n : ℚ) :
    List (Currency × ℚ) :=
  match inv with
  | [] => [(c, n)]
  | (c0, t) :: rest =>
    if c0 = c then (c0, t + n) :: rest else (c0, t) :: addToInventory rest c n

/-- Modelled from the spec: zhang-ast `Transaction::get_postings_inventory`
is not under src/.  Per §4.4 step 3: the declared units are summed per
currency; a posting with no unit is the elision slot and absorbs the
negation of each currency's sum; more than one elided posting is the error
`TransactionHasMultipleImplicitPosting` (modelled as `Except.error ()`). -/
def getPostingsInventory (txn : Txn) : Except Unit (List (Currency × ℚ)) :=
  let elided := (txn.postings.filter (fun p => p.unit.isNone)).length
  let sums := txn.postings.foldl
    (fun inv p =>
      match p.unit with
      | some a => addToInventory inv a.currency a.number
      | none => inv) []
  if 1 < elided then .error ()
  else if elided = 1 then .ok (sums.map (fun ct => (ct.1, 0)))
  else .ok sums

/-- Modelled from the spec: `InMemoryOptions` (crate options module, not
under src/), restricted to the two fields `is_transaction_balanced`
reads (§4.7). -/
structure InMemoryOptions where
  default_balance_tolerance_precision : ℤ
  default_rounding : Rounding
deriving DecidableEq

/-- `Ledger::is_transaction_balanced` (ledger.rs lines 136-160): the
transaction inventory is computed; for every currency of the inventory the
total is rounded under the declared commodity's precision and rounding
("RoundUp" means round up; any other declared string rounds down), falling
back to `default_balance_tolerance_precision` and `default_rounding` when
the commodity is undeclared or has no rounding; the transaction is balanced
iff every rounded total is zero.  An inventory error yields `false`. -/
def isTransactionBalanced (opts : InMemoryOptions) (store : Store) (txn : Txn) :
    Bool :=
  match getPostingsInventory txn with
  | .error _ => false
  | .ok inventory =>
    inventory.all (fun ct =>
      let commodity := alookup ct.1 store.commodities
      let precision :=
        (commodity.map (fun it => it.precision)).getD
          opts.default_balance_tolerance_precision
      let rounding :=
        ((commodity.bind (fun it => it.rounding)).map
          (fun s => decide (s = "RoundUp"))).getD opts.default_rounding.isUp
      decide (roundWith ct.2 precision rounding = 0))

/-! ## Association-list upsert (HashMap insert / entry API) -/

/-- Replace the value at the first occurrence of `k`, or append `(k, v)`
(HashMap `insert`). -/
def aupsert {β : Type} {α : Type} [DecidableEq α] (k : α) (v : β) :
    List (α × β) → List (α × β)
  | [] => [(k, v)]
  | (k0, v0) :: rest =>
    if k0 = k then (k, v) :: rest else (k0, v0) :: aupsert k v rest

/-! ## single_account_balances (domains/mod.rs lines 432-466) -/

/-- Balance row returned per currency. -/
structure AccountBalanceDomain where
  datetime : DT
  account : String
  account_status : AccountStatus
  balance_number : ℚ
  balance_commodity : Currency
deriving DecidableEq

/-- The per-currency `BTreeMap<NaiveDate, Amount>`: an association list
from day number to amount, keys unique, insertion replaces in place. -/
abbrev DatedAmounts := List (Nat × Amount)

/-- BTreeMap `insert`: replace the value at an existing key in place, else
append. -/
def innerInsert (k : Nat) (v : Amount) : DatedAmounts → DatedAmounts
  | [] => [(k, v)]
  | (k0, v0) :: rest =>
    if k0 = k then (k, v) :: rest else (k0, v0) :: innerInsert k v rest

/-- BTreeMap `pop_last`: the entry with the greatest key (`none` on an
empty map; keys are unique by construction). -/
def popLastEntry : DatedAmounts → Option (Nat × Amount)
  | [] => none
  | (k, v) :: rest =>
    match popLastEntry rest with
    | none => some (k, v)
    | some (k2, v2) => if k < k2 then some (k2, v2) else some (k, v)

/-- The outer `IndexMap<Currency, BTreeMap<NaiveDate, Amount>>` in currency
first-insertion order. -/
abbrev CurrencyDated := List (Currency × DatedAmounts)

/-- One loop iteration of `single_account_balances`: insert the posting's
`after_amount` under (its currency, its transaction's local date). -/
def outerStep : CurrencyDated → PostingDomain → CurrencyDated
  | [], p =>
    [(p.after_amount.currency,
      innerInsert p.trx_datetime.date p.after_amount [])]
  | (c, m) :: rest, p =>
    if c = p.after_amount.currency then
      (c, innerInsert p.trx_datetime.date p.after_amount m) :: rest
    else (c, m) :: outerStep rest p

/-- The inner-map update as a fold step: insert one posting's after-amount
under its transaction's local date. -/
def innerStepP (m : DatedAmounts) (p : PostingDomain) : DatedAmounts :=
  innerInsert p.trx_datetime.date p.after_amount m

/-- Turn one currency's dated map into the returned row
(`balance.pop_last().expect("")`; the map is never empty when this is
reached, the `none` branch is the unreachable panic modelled by a junk
row). -/
def mkBalanceRow (a : Account) (m : DatedAmounts) : AccountBalanceDomain :=
  match popLastEntry m with
  | some (d, amt) => ⟨⟨d, 0⟩, a.name, .Open, amt.number, amt.currency⟩
  | none => ⟨⟨0, 0⟩, a.name, .Open, 0, ""⟩

/-- `Operations::single_account_balances`: parse the account name; keep the
account's postings; stable-sort them by `trx_datetime`; fold them into a
currency-indexed map of date-indexed after-amounts; report, per currency,
the entry at the greatest date. -/
def singleAccountBalances (store : Store) (account_name : String) :
    Except ZhangError (List AccountBalanceDomain) :=
  match parseAccount account_name with
  | none => .error .InvalidAccount
  | some a =>
    let sorted := rustSort
      (fun p q => decide (dtlt p.trx_datetime q.trx_datetime))
      (store.postings.filter (fun p => decide (p.account = a)))
    let ret := sorted.foldl outerStep []
    .ok (ret.map (fun cm => mkBalanceRow a cm.2))

/-! ## get_price (domains/mod.rs lines 353-365) -/

/-- `Operations::get_price`: among stored prices from `fromCommodity` to
`toCommodity` dated at or before `date`, stable-sort by datetime and take
the first. -/
def getPrice (store : Store) (date : DT) (fromCommodity toCommodity : String) :
    Option PriceDomain :=
  (rustSort (fun a b => decide (dtlt a.datetime b.datetime))
    (((store.prices.filter
        (fun p => decide (p.commodity = fromCommodity))).filter
        (fun p => decide (p.target_commodity = toCommodity))).filter
        (fun p => decide (dtle p.datetime date)))).head?

/-! ## update_account_lot (domains/mod.rs lines 243-262) -/

/-- The in-place update of `entry.iter_mut().find(|lot| lot.price.eq(&price))`:
set the amount of the first lot whose `price` field equals `price`
(commodity is NOT inspected), or report `none` when no lot matches. -/
def setFirstPriceMatch (price : Option Amount) (amount : ℚ) :
    List CommodityLotRecord → Option (List CommodityLotRecord)
  | [] => none
  | r :: rest =>
    if r.price = price then some ({ r with amount := amount } :: rest)
    else (setFirstPriceMatch price amount rest).map (fun l => r :: l)

/-- `Operations::update_account_lot`: parse the account; in its lot list
(created empty if absent, the `entry().or_insert_with(Vec::new)` call),
overwrite the amount of the first lot whose `price` equals the given
price, else append a fresh lot record carrying the given currency, price
and amount. -/
def updateAccountLot (store : Store) (account_name : String)
    (currency : Currency) (price : Option Amount) (amount : ℚ) :
    Except ZhangError Store :=
  match parseAccount account_name with
  | none => .error .InvalidAccount
  | some a =>
    let lots := (alookup a store.commodity_lots).getD []
    let updated :=
      match setFirstPriceMatch price amount lots with
      | some l => l
      | none =>
        lots ++ [{ commodity := currency, datetime := none,
                   amount := amount, price := price }]
    .ok { store with commodity_lots := aupsert a updated store.commodity_lots }

/-! ## Meta merging and option resolution (ledger.rs `process`,
domains/mod.rs `insert_or_update_options`) -/

/-- A meta (date-less) directive as the dedup inspects it: an `Option`
directive with its key and value, or any other meta-only directive
(abstracted by a payload; dedup never equates those). -/
inductive MetaDirective
  | Opt (key value : String)
  | Other (payload : Nat)
deriving DecidableEq

/-- The dedup predicate of `Ledger::process` (ledger.rs lines 71-74): two
`Option` directives are duplicates iff their keys are equal; every other
pair is distinct. -/
def metaEq : MetaDirective → MetaDirective → Bool
  | .Opt k1 _, .Opt k2 _ => decide (k1 = k2)
  | _, _ => false

/-- Tail of itertools `dedup_by`: drop elements equal to the last kept one. -/
def dedupRun {α : Type} (eq : α → α → Bool) (last : α) : List α → List α
  | [] => []
  | y :: rest =>
    if eq last y then dedupRun eq last rest else y :: dedupRun eq y rest

/-- itertools `dedup_by`: of every run of consecutive pairwise-equal
elements, keep the first. -/
def dedupBy {α : Type} (eq : α → α → Bool) : List α → List α
  | [] => []
  | x :: rest => x :: dedupRun eq x rest

/-- The merged meta list of `Ledger::process` (ledger.rs lines 67-75):
builtin default options, then the user's meta directives, reversed, then
consecutive same-key `Option` directives deduplicated keeping the first
(i.e. the last occurrence of each run). -/
def mergedMetas (defaults metas : List MetaDirective) : List MetaDirective :=
  dedupBy metaEq ((defaults ++ metas).reverse)

/-- `Operations::insert_or_update_options` applied to one processed
directive: `Option` directives upsert `options[key] = value`, every other
meta directive leaves the options table unchanged. -/
def optStep (m : List (String × String)) : MetaDirective → List (String × String)
  | .Opt k v => aupsert k v m
  | .Other _ => m

/-- The options table after a full load: the merged meta list is processed
in original order (`merged_metas.iter_mut().rev()` of the reversed list),
each `Option` directive upserting its key. -/
def processOptions (defaults metas : List MetaDirective) :
    List (String × String) :=
  ((mergedMetas defaults metas).reverse).foldl optStep []

/-- The value of the first `Option` directive with key `k`. -/
def firstOpt (k : String) : List MetaDirective → Option String
  | [] => none
  | .Opt k0 v :: rest => if k0 = k then some v else firstOpt k rest
  | .Other _ :: rest => firstOpt k rest

/-- The value of the last `Option` directive with key `k`. -/
def lastOpt (l : List MetaDirective) (k : String) : Option String :=
  firstOpt k l.reverse

/-- Modelled from the spec: `BuiltinOption::default_options()` (options
module, not under src/) pre-seeds the recognised options of §4.7; the
exact default values are immaterial to every claim about merging. -/
def specDefaultOptions : List MetaDirective :=
  [.Opt "title" "Ledger", .Opt "operating_currency" "CNY",
   .Opt "default_rounding" "RoundDown",
   .Opt "default_balance_tolerance_precision" "2",
   .Opt "timezone" "UTC", .Opt "default_commodity_precision" "2"]

/-! ## insert_or_update_account (domains/mod.rs lines 99-115) -/

/-- The `accounts.entry(account).or_insert_with(...)` followed by
`account_domain.status = status`: an existing record keeps its date, type,
name and alias and only its status is assigned; a missing record is
created from the directive's data. -/
def accountsUpsert (accounts : List (Account × AccountDomain)) (datetime : DT)
    (account : Account) (status : AccountStatus) (aliasName : Option String) :
    List (Account × AccountDomain) :=
  match accounts with
  | [] =>
    [(account,
      { date := datetime, rtype := account.account_type.asString,
        name := account.name, status := status, aliasName := aliasName })]
  | (k, v) :: rest =>
    if k = account then (k, { v with status := status }) :: rest
    else (k, v) :: accountsUpsert rest datetime account status aliasName

/-- `Operations::insert_or_update_account`. -/
def insertOrUpdateAccount (store : Store) (datetime : DT) (account : Account)
    (status : AccountStatus) (aliasName : Option String) : Store :=
  { store with
    accounts := accountsUpsert store.accounts datetime account status aliasName }

/-! ## insert_transaction_posting (domains/mod.rs lines 144-165) -/

/-- `Operations::insert_transaction_posting`.  The code first looks the
transaction up with `.expect("cannot find trx")` — a panic when the id is
unknown, modelled by the outer `none`; it then parses the account name,
failing with `InvalidAccount`; on success the posting is appended with
`trx_sequence` and `trx_datetime` copied from the transaction header. -/
def insertTransactionPosting (store : Store) (trx_id : String)
    (account_name : String) (unit cost : Option Amount)
    (inferred_amount previous_amount after_amount : Amount) :
    Option (Except ZhangError Store) :=
  match alookup trx_id store.transactions with
  | none => none
  | some trx =>
    match parseAccount account_name with
    | none => some (.error .InvalidAccount)
    | some acc =>
      some (.ok { store with postings := store.postings ++
        [{ trx_id := trx_id, trx_sequence := trx.sequence,
           trx_datetime := trx.datetime, account := acc, unit := unit,
           cost := cost, inferred_amount := inferred_amount,
           previous_amount := previous_amount, after_amount := after_amount }] })

/-! ## trx_tags and trx_links (domains/mod.rs lines 378-398) -/

def isHexDigit (c : Char) : Bool :=
  c.isDigit || (('a' ≤ c && c ≤ 'f') || ('A' ≤ c && c ≤ 'F'))

/-- Modelled from the uuid crate (an external dependency): a hyphenated
UUID string is 36 characters, hyphens at positions 8, 13, 18 and 23 and
hex digits elsewhere. -/
def isValidUuid (s : String) : Bool :=
  decide (s.toList.length = 36) &&
  s.toList.enum.all (fun ic =>
    if ic.1 = 8 ∨ ic.1 = 13 ∨ ic.1 = 18 ∨ ic.1 = 23 then decide (ic.2 = '-')
    else isHexDigit ic.2)

/-- `Uuid::from_str` followed by the canonical rendering used as the map
key: parsing fails on a malformed string (the call sites `unwrap`, a
panic), and canonicalises hex case on success. -/
def parseUuid (s : String) : Option String :=
  if isValidUuid s then some (String.mk (s.toList.map Char.toLower)) else none

/-- `Operations::trx_tags`: `unwrap` of the uuid parse (panic on a
malformed id, the outer `none`), then the header's tags, defaulting to the
empty list when the transaction is unknown. -/
def trxTags (store : Store) (trx_id : String) : Option (List String) :=
  match parseUuid trx_id with
  | none => none
  | some u => some (((alookup u store.transactions).map
      (fun it => it.tags)).getD [])

/-- `Operations::trx_links`: same shape as `trx_tags`, returning links. -/
def trxLinks (store : Store) (trx_id : String) : Option (List String) :=
  match parseUuid trx_id with
  | none => none
  | some u => some (((alookup u store.transactions).map
      (fun it => it.links)).getD [])

/-- The freshly created store (`Store::default()`): every table empty. -/
def emptyStore : Store :=
  { options := [], accounts := [], commodities := [], transactions := [],
    postings := [], prices := [], commodity_lots := [], documents := [],
    metas := [], errors := [] }

/-- A one-transaction sample store: a single CNY posting against
`Assets:Cash` (the shape of spec scenario S1). -/
def sampleStore : Store :=
  { emptyStore with postings :=
    [⟨"t1", 1, ⟨5, 0⟩, ⟨.Assets, "Assets:Cash"⟩, none, none,
      ⟨-10, "CNY"⟩, ⟨0, "CNY"⟩, ⟨-10, "CNY"⟩⟩] }

/-! ## Derived orders used in the claim statements -/

/-- The lexicographic (datetime, sequence) strict order on postings: the
"greatest `trx_datetime`, ties broken by greatest `trx_sequence`" order of
the latest-balance queries. -/
def postingLexLT (p q : PostingDomain) : Prop :=
  dtlt p.trx_datetime q.trx_datetime ∨
    (p.trx_datetime = q.trx_datetime ∧ p.trx_sequence < q.trx_sequence)

/-- The datetime of a dated directive (junk default for the undated case,
which the dated-list claims exclude). -/
def directiveKey (d : SpannedDirective) : DT :=
  d.datetime.getD ⟨0, 0⟩

/-! # Theorems

First the order-theoretic facts about `DT`, then the generic theory of the
stable sort `rustSort`, then the ten claims. -/

theorem dtlt_asymm {x y : DT} (h1 : dtlt x y) (h2 : dtlt y x) : False := by
  unfold dtlt at h1 h2; omega

theorem dtlt_negtrans {x y z : DT} (h : dtlt x z) : dtlt x y ∨ dtlt y z := by
  unfold dtlt at h ⊢; omega

theorem not_dtlt_iff {x y : DT} : ¬ dtlt y x ↔ dtle x y := by
  cases x; cases y; unfold dtlt dtle; simp; omega

theorem dtle_refl (x : DT) : dtle x x := by
  unfold dtle; omega

theorem dtlt_or_eq_of_not_dtlt {x y : DT} (h : ¬ dtlt y x) : dtlt x y ∨ x = y := by
  rcases x with ⟨xd, xt⟩
  rcases y with ⟨yd, yt⟩
  simp only [dtlt, DT.mk.injEq] at h ⊢
  omega

theorem dtle_of_dtlt {x y : DT} (h : dtlt x y) : dtle x y := by
  unfold dtlt at h; unfold dtle; omega

/-! ## Generic facts about the stable sort -/

theorem insRev_perm {α : Type} (lt : α → α → Bool) (x : α) (acc : List α) :
    (insRev lt x acc).Perm (x :: acc) := by
  induction acc with
  | nil => simp [insRev]
  | cons e rest ih =>
    simp only [insRev]
    split
    · exact (ih.cons e).trans (List.Perm.swap x e rest)
    · exact List.Perm.refl _

theorem mem_insRev {α : Type} {lt : α → α → Bool} {x : α} {acc : List α}
    {e : α} (h : e ∈ insRev lt x acc) : e = x ∨ e ∈ acc := by
  have := (insRev_perm lt x acc).mem_iff.1 h
  simpa using this

theorem sortCore_perm {α : Type} (lt : α → α → Bool) (l acc : List α) :
    (sortCore lt acc l).Perm (acc.reverse ++ l) := by
  induction l generalizing acc with
  | nil => simp [sortCore]
  | cons x xs ih =>
    refine (ih (insRev lt x acc)).trans ?_
    have h1 : (insRev lt x acc).reverse.Perm (x :: acc) :=
      ((insRev lt x acc).reverse_perm).trans (insRev_perm lt x acc)
    refine (h1.append_right xs).trans ?_
    have h2 : (x :: (acc ++ xs)).Perm (x :: (acc.reverse ++ xs)) :=
      ((acc.reverse_perm.symm).append_right xs).cons x
    exact h2.trans (List.perm_middle.symm)

theorem rustSort_perm {α : Type} (lt : α → α → Bool) (l : List α) :
    (rustSort lt l).Perm l := by
  simpa [rustSort] using sortCore_perm lt l []

theorem mem_rustSort {α : Type} {lt : α → α → Bool} {l : List α} {e : α} :
    e ∈ rustSort lt l ↔ e ∈ l :=
  (rustSort_perm lt l).mem_iff

theorem insRev_pairwise {α : Type} (lt : α → α → Bool) (S : α → α → Prop)
    (P : α → Prop) (x : α) (acc : List α)
    (hx : P x) (hacc : ∀ e ∈ acc, P e) (hS : ∀ e ∈ acc, S e x)
    (hasym : ∀ a, P a → ∀ b, P b → lt a b = true → lt b a = true → False)
    (hneg : ∀ a, P a → ∀ b, P b → ∀ c, P c →
      lt a c = true → lt a b = true ∨ lt b c = true)
    (hpw : acc.Pairwise (fun a b =>
      lt b a = true ∨ (lt b a = false ∧ lt a b = false ∧ S b a))) :
    (insRev lt x acc).Pairwise (fun a b =>
      lt b a = true ∨ (lt b a = false ∧ lt a b = false ∧ S b a)) := by
  induction acc with
  | nil => simp [insRev]
  | cons e rest ih =>
    rw [List.pairwise_cons] at hpw
    obtain ⟨hhead, htail⟩ := hpw
    by_cases hlt : lt x e = true
    · simp only [insRev, hlt, if_true]
      rw [List.pairwise_cons]
      constructor
      · intro b hb
        rcases mem_insRev hb with rfl | hb2
        · exact Or.inl hlt
        · exact hhead b hb2
      · exact ih (fun a ha => hacc a (List.mem_cons_of_mem e ha))
          (fun a ha => hS a (List.mem_cons_of_mem e ha)) htail
    · have hlt2 : lt x e = false := by simpa using hlt
      simp only [insRev, hlt2]
      rw [if_neg (by simp)]
      rw [List.pairwise_cons]
      refine ⟨?_, List.pairwise_cons.2 ⟨hhead, htail⟩⟩
      intro b hb
      have hSbx : S b x := hS b hb
      have hPb : P b := hacc b hb
      by_cases hbx : lt b x = true
      · exact Or.inl hbx
      · refine Or.inr ⟨by simpa using hbx, ?_, hSbx⟩
        rcases List.mem_cons.1 hb with rfl | hbr
        · exact hlt2
        · by_contra hxb
          have hxb2 : lt x b = true := by simpa using hxb
          rcases hneg x hx e (hacc e (List.mem_cons_self e rest)) b hPb hxb2 with
            h1 | h1
          · exact hlt h1
          · rcases hhead b hbr with h2 | h2
            · exact hasym b hPb e (hacc e (List.mem_cons_self e rest)) h2 h1
            · rw [h2.2.1] at h1; exact Bool.false_ne_true h1

theorem sortCore_pairwise {α : Type} (lt : α → α → Bool) (S : α → α → Prop)
    (P : α → Prop) (l : List α) :
    ∀ acc : List α, (∀ e ∈ l, P e) → (∀ e ∈ acc, P e) →
    (∀ e ∈ acc, ∀ x ∈ l, S e x) → l.Pairwise S →
    (∀ a, P a → ∀ b, P b → lt a b = true → lt b a = true → False) →
    (∀ a, P a → ∀ b, P b → ∀ c, P c →
      lt a c = true → lt a b = true ∨ lt b c = true) →
    acc.Pairwise (fun a b =>
      lt b a = true ∨ (lt b a = false ∧ lt a b = false ∧ S b a)) →
    (sortCore lt acc l).Pairwise (fun a b =>
      lt a b = true ∨ (lt a b = false ∧ lt b a = false ∧ S a b)) := by
  induction l with
  | nil =>
    intro acc _ _ _ _ _ _ hpw
    simpa [sortCore] using (List.pairwise_reverse.2 hpw)
  | cons x xs ih =>
    intro acc hl hacc hS hSl hasym hneg hpw
    rw [List.pairwise_cons] at hSl
    obtain ⟨hSx, hSxs⟩ := hSl
    refine ih (insRev lt x acc) (fun e he => hl e (List.mem_cons_of_mem x he))
      ?_ ?_ hSxs hasym hneg ?_
    · intro e he
      rcases mem_insRev he with heq | he2
      · subst heq; exact hl _ (List.mem_cons_self _ _)
      · exact hacc e he2
    · intro e he y hy
      rcases mem_insRev he with heq | he2
      · subst heq; exact hSx y hy
      · exact hS e he2 y (List.mem_cons_of_mem x hy)
    · exact insRev_pairwise lt S P x acc (hl x (List.mem_cons_self x xs)) hacc
        (fun e he => hS e he x (List.mem_cons_self x xs)) hasym hneg hpw

theorem rustSort_pairwise {α : Type} (lt : α → α → Bool) (S : α → α → Prop)
    (P : α → Prop) (l : List α)
    (hl : ∀ e ∈ l, P e) (hSl : l.Pairwise S)
    (hasym : ∀ a, P a → ∀ b, P b → lt a b = true → lt b a = true → False)
    (hneg : ∀ a, P a → ∀ b, P b → ∀ c, P c →
      lt a c = true → lt a b = true ∨ lt b c = true) :
    (rustSort lt l).Pairwise (fun a b =>
      lt a b = true ∨ (lt a b = false ∧ lt b a = false ∧ S a b)) :=
  sortCore_pairwise lt S P l [] hl (by simp) (by simp) hSl hasym hneg (by simp)

theorem insRev_filter {α : Type} (lt : α → α → Bool) (p : α → Bool) (x : α)
    (acc : List α)
    (h : p x = true → ∀ e ∈ acc, p e = true → lt x e = false) :
    (insRev lt x acc).filter p =
      if p x then x :: acc.filter p else acc.filter p := by
  induction acc with
  | nil => cases hx : p x <;> simp [insRev, hx]
  | cons e rest ih =>
    by_cases hlt : lt x e = true
    · have hih := ih (fun hpx f hf hpf =>
        h hpx f (List.mem_cons_of_mem e hf) hpf)
      cases hx : p x with
      | true =>
        have hpe : p e = false := by
          by_contra hpe
          have : lt x e = false :=
            h hx e (List.mem_cons_self e rest) (by simpa using hpe)
          rw [this] at hlt; exact Bool.false_ne_true hlt
        simp [insRev, hlt, List.filter_cons, hpe, hih, hx]
      | false =>
        simp [insRev, hlt, List.filter_cons, hih, hx]
    · have hlt2 : lt x e = false := by simpa using hlt
      cases hx : p x <;>
        simp [insRev, hlt2, List.filter_cons, hx]

theorem sortCore_filter {α : Type} (lt : α → α → Bool) (p : α → Bool)
    (A : α → Prop) (l : List α) :
    ∀ acc : List α, (∀ e ∈ l, A e) → (∀ e ∈ acc, A e) →
    (∀ a, A a → ∀ b, A b → p a = true → p b = true → lt a b = false) →
    (sortCore lt acc l).filter p = (acc.filter p).reverse ++ l.filter p := by
  induction l with
  | nil =>
    intro acc _ _ _
    simp [sortCore, List.filter_reverse]
  | cons x xs ih =>
    intro acc hl hacc hmut
    have hx : A x := hl x (List.mem_cons_self x xs)
    have step : (insRev lt x acc).filter p =
        if p x then x :: acc.filter p else acc.filter p :=
      insRev_filter lt p x acc (fun hpx e he hpe => hmut x hx e (hacc e he) hpx hpe)
    have hrec := ih (insRev lt x acc)
      (fun e he => hl e (List.mem_cons_of_mem x he))
      (fun e he => by
        rcases mem_insRev he with rfl | he2
        · exact hx
        · exact hacc e he2) hmut
    rw [show sortCore lt acc (x :: xs) = sortCore lt (insRev lt x acc) xs from rfl,
      hrec, step]
    cases hpx : p x <;> simp [List.filter_cons, hpx]

theorem rustSort_filter {α : Type} (lt : α → α → Bool) (p : α → Bool)
    (l : List α)
    (hmut : ∀ a ∈ l, ∀ b ∈ l, p a = true → p b = true → lt a b = false) :
    (rustSort lt l).filter p = l.filter p := by
  have := sortCore_filter lt p (fun e => e ∈ l) l [] (fun e he => he) (by simp)
    (fun a ha b hb => hmut a ha b hb)
  simpa [rustSort] using this

theorem insRev_chain {α : Type} (lt : α → α → Bool) (x : α) (acc : List α)
    (hasym : ∀ a b, lt a b = true → lt b a = true → False)
    (h : acc.Chain' (fun a b => lt a b = false)) :
    (insRev lt x acc).Chain' (fun a b => lt a b = false) := by
  induction acc with
  | nil => simp [insRev]
  | cons e rest ih =>
    rw [List.chain'_cons'] at h
    obtain ⟨hhead, htail⟩ := h
    by_cases hlt : lt x e = true
    · simp only [insRev, hlt, if_true]
      rw [List.chain'_cons']
      refine ⟨?_, ih htail⟩
      intro b hb
      cases rest with
      | nil =>
        simp [insRev] at hb
        subst hb
        by_contra hex
        exact hasym x e hlt (by simpa using hex)
      | cons f rest2 =>
        by_cases hxf : lt x f = true
        · simp only [insRev, hxf, if_true, List.head?_cons, Option.mem_def,
            Option.some.injEq] at hb
          subst hb
          exact hhead _ (by simp)
        · have hxf2 : lt x f = false := by simpa using hxf
          simp only [insRev, hxf2] at hb
          rw [if_neg (by simp)] at hb
          simp only [List.head?_cons, Option.mem_def, Option.some.injEq] at hb
          subst hb
          by_contra hex
          exact hasym x e hlt (by simpa using hex)
    · have hlt2 : lt x e = false := by simpa using hlt
      simp only [insRev, hlt2]
      rw [if_neg (by simp)]
      rw [List.chain'_cons']
      exact ⟨fun b hb => by simp at hb; subst hb; exact hlt2,
        List.chain'_cons'.2 ⟨hhead, htail⟩⟩

theorem sortCore_chain {α : Type} (lt : α → α → Bool) (l : List α)
    (hasym : ∀ a b, lt a b = true → lt b a = true → False) :
    ∀ acc : List α, acc.Chain' (fun a b => lt a b = false) →
    (sortCore lt acc l).Chain' (fun a b => lt b a = false) := by
  induction l with
  | nil =>
    intro acc h
    have : (acc.reverse).Chain' (fun a b => lt b a = false) := by
      rw [List.chain'_reverse]
      exact h
    simpa [sortCore] using this
  | cons x xs ih =>
    intro acc h
    exact ih (insRev lt x acc) (insRev_chain lt x acc hasym h)

theorem rustSort_chain {α : Type} (lt : α → α → Bool) (l : List α)
    (hasym : ∀ a b, lt a b = true → lt b a = true → False) :
    (rustSort lt l).Chain' (fun a b => lt b a = false) :=
  sortCore_chain lt l hasym [] (by simp)

theorem sortCore_eq_of_chain {α : Type} (lt : α → α → Bool) (l : List α) :
    ∀ acc : List α,
    (∀ x, l.head? = some x → ∀ e, acc.head? = some e → lt x e = false) →
    l.Chain' (fun a b => lt b a = false) →
    sortCore lt acc l = acc.reverse ++ l := by
  induction l with
  | nil => intro acc _ _; simp [sortCore]
  | cons x xs ih =>
    intro acc hhead hchain
    rw [List.chain'_cons'] at hchain
    obtain ⟨hh2, htail⟩ := hchain
    have hx : insRev lt x acc = x :: acc := by
      cases acc with
      | nil => rfl
      | cons e rest =>
        have : lt x e = false := hhead x rfl e rfl
        simp [insRev, this]
    rw [show sortCore lt acc (x :: xs) = sortCore lt (insRev lt x acc) xs from rfl,
      hx, ih (x :: acc) ?_ htail]
    · simp
    · intro y hy e he
      simp only [List.head?_cons, Option.some.injEq] at he
      subst he
      exact hh2 y hy

theorem rustSort_eq_of_chain {α : Type} (lt : α → α → Bool) (m : List α)
    (h : m.Chain' (fun a b => lt b a = false)) : rustSort lt m = m := by
  have := sortCore_eq_of_chain lt m [] (by simp) h
  simpa [rustSort] using this

theorem rustSort_idem {α : Type} (lt : α → α → Bool) (l : List α)
    (hasym : ∀ a b, lt a b = true → lt b a = true → False) :
    rustSort lt (rustSort lt l) = rustSort lt l :=
  rustSort_eq_of_chain lt (rustSort lt l) (rustSort_chain lt l hasym)

/-! ## The directive comparator -/

theorem dtlt_irrefl (x : DT) : ¬ dtlt x x := by
  unfold dtlt; omega

theorem dtlt_trichotomy (x y : DT) : dtlt x y ∨ x = y ∨ dtlt y x := by
  rcases x with ⟨xd, xt⟩
  rcases y with ⟨yd, yt⟩
  simp only [dtlt, DT.mk.injEq]
  omega

theorem dtCompare_lt_iff {x y : DT} : dtCompare x y = .lt ↔ dtlt x y := by
  rcases x with ⟨xd, xt⟩
  rcases y with ⟨yd, yt⟩
  simp only [dtCompare, dtlt]
  split_ifs <;> simp <;> omega

theorem dtCompare_eq_iff {x y : DT} : dtCompare x y = .eq ↔ x = y := by
  rcases x with ⟨xd, xt⟩
  rcases y with ⟨yd, yt⟩
  simp only [dtCompare, dtlt, DT.mk.injEq]
  split_ifs <;> simp <;> omega

theorem dtCompare_gt_iff {x y : DT} : dtCompare x y = .gt ↔ dtlt y x := by
  rcases x with ⟨xd, xt⟩
  rcases y with ⟨yd, yt⟩
  simp only [dtCompare, dtlt]
  split_ifs <;> simp <;> omega

theorem cmpDirectives_none {a b : SpannedDirective}
    (h : a.datetime = none ∨ b.datetime = none) : cmpDirectives a b = .gt := by
  unfold cmpDirectives
  rcases ha : a.datetime with _ | x <;> rcases hb : b.datetime with _ | y
  · rfl
  · rfl
  · rfl
  · rw [ha, hb] at h; simp at h

theorem cmpDirectives_some {a b : SpannedDirective} {x y : DT}
    (ha : a.datetime = some x) (hb : b.datetime = some y) :
    cmpDirectives a b =
      match dtCompare x y with
      | .eq =>
        match isBalanceType a.dtype, isBalanceType b.dtype with
        | true, true => .eq
        | true, false => .lt
        | false, true => .gt
        | false, false => .eq
      | o => o := by
  unfold cmpDirectives
  rw [ha, hb]

theorem ltDirective_of_none {a b : SpannedDirective}
    (h : a.datetime = none ∨ b.datetime = none) : ltDirective a b = false := by
  unfold ltDirective
  rw [cmpDirectives_none h]
  simp

theorem ltDirective_iff {a b : SpannedDirective} {x y : DT}
    (ha : a.datetime = some x) (hb : b.datetime = some y) :
    ltDirective a b = true ↔
      (dtlt x y ∨ (x = y ∧ isBalanceType a.dtype = true ∧
        isBalanceType b.dtype = false)) := by
  unfold ltDirective
  rw [cmpDirectives_some ha hb]
  rcases hc : dtCompare x y with _ | _ | _
  · have hxy := dtCompare_lt_iff.1 hc
    simp [hxy]
  · have hxy : x = y := dtCompare_eq_iff.1 hc
    subst hxy
    cases hba : isBalanceType a.dtype <;> cases hbb : isBalanceType b.dtype <;>
      simp [hba, hbb, dtlt_irrefl]
  · have hyx := dtCompare_gt_iff.1 hc
    refine iff_of_false (by simp) ?_
    rintro (h | ⟨rfl, _⟩)
    · exact dtlt_asymm h hyx
    · exact dtlt_irrefl x hyx

theorem ltDirective_asymm :
    ∀ a b, ltDirective a b = true → ltDirective b a = true → False := by
  intro a b h1 h2
  rcases ha : a.datetime with _ | x
  · rw [ltDirective_of_none (Or.inl ha)] at h1; cases h1
  rcases hb : b.datetime with _ | y
  · rw [ltDirective_of_none (Or.inr hb)] at h1; cases h1
  rw [ltDirective_iff ha hb] at h1
  rw [ltDirective_iff hb ha] at h2
  rcases h1 with h1 | ⟨rfl, hb1, hb2⟩
  · rcases h2 with h2 | ⟨heq, _, _⟩
    · exact dtlt_asymm h1 h2
    · subst heq; exact dtlt_irrefl _ h1
  · rcases h2 with h2 | ⟨_, hc1, _⟩
    · exact dtlt_irrefl _ h2
    · rw [hb2] at hc1; cases hc1

theorem ltDirective_negtrans :
    ∀ a, a.datetime ≠ none → ∀ b, b.datetime ≠ none → ∀ c, c.datetime ≠ none →
      ltDirective a c = true → ltDirective a b = true ∨ ltDirective b c = true := by
  intro a hda b hdb c hdc hac
  rcases hx : a.datetime with _ | x
  · exact absurd hx hda
  rcases hy : b.datetime with _ | y
  · exact absurd hy hdb
  rcases hz : c.datetime with _ | z
  · exact absurd hz hdc
  rw [ltDirective_iff hx hz] at hac
  rw [ltDirective_iff hx hy, ltDirective_iff hy hz]
  rcases hac with hlt | ⟨heq, hba, hbc⟩
  · rcases dtlt_negtrans (y := y) hlt with h | h
    · exact Or.inl (Or.inl h)
    · exact Or.inr (Or.inl h)
  · subst heq
    rcases dtlt_trichotomy x y with h | h | h
    · exact Or.inl (Or.inl h)
    · subst h
      cases hbb : isBalanceType b.dtype
      · exact Or.inl (Or.inr ⟨rfl, hba, rfl⟩)
      · exact Or.inr (Or.inr ⟨rfl, rfl, hbc⟩)
    · exact Or.inr (Or.inl h)

/-- C6: `sort_directives_datetime` is idempotent: sorting an
already-sorted directive list changes nothing, because the sorted output
never orders an adjacent pair as strictly descending and the stable sort
moves an element only past a predecessor strictly greater than it. -/
theorem sort_directives_datetime_idem (l : List SpannedDirective) :
    sortDirectivesDatetime (sortDirectivesDatetime l) = sortDirectivesDatetime l :=
  rustSort_idem ltDirective l ltDirective_asymm

/-- C5: on a list of dated directives, `sort_directives_datetime` returns
a permutation of its input that is ordered by datetime ascending, places
BalanceCheck/BalancePad directives before directives of every other kind
at equal datetimes, and preserves the relative input order inside every
tie-break class (datetime, balance-or-not). -/
theorem sort_directives_datetime_spec (l : List SpannedDirective)
    (hd : ∀ d ∈ l, d.datetime ≠ none) :
    (sortDirectivesDatetime l).Perm l ∧
    (sortDirectivesDatetime l).Pairwise (fun a b =>
      dtle (directiveKey a) (directiveKey b) ∧
      (directiveKey a = directiveKey b →
        isBalanceType b.dtype = true → isBalanceType a.dtype = true)) ∧
    (∀ (t : DT) (bit : Bool),
      (sortDirectivesDatetime l).filter (fun d =>
        decide (d.datetime = some t) && decide (isBalanceType d.dtype = bit)) =
      l.filter (fun d =>
        decide (d.datetime = some t) && decide (isBalanceType d.dtype = bit))) := by
  refine ⟨rustSort_perm ltDirective l, ?_, ?_⟩
  · have hpw := rustSort_pairwise ltDirective (fun _ _ => True)
      (fun d => d.datetime ≠ none) l hd
      (List.pairwise_iff_forall_sublist.2 (fun _ => trivial))
      (fun a _ b _ => ltDirective_asymm a b)
      (fun a ha b hb c hc => ltDirective_negtrans a ha b hb c hc)
    refine hpw.imp_of_mem ?_
    intro a b hma hmb hr
    have hal : a ∈ l := mem_rustSort.1 hma
    have hbl : b ∈ l := mem_rustSort.1 hmb
    rcases hx : a.datetime with _ | x
    · exact absurd hx (hd a hal)
    rcases hy : b.datetime with _ | y
    · exact absurd hy (hd b hbl)
    have hka : directiveKey a = x := by simp [directiveKey, hx]
    have hkb : directiveKey b = y := by simp [directiveKey, hy]
    rw [hka, hkb]
    rcases hr with hab | ⟨hab, hba, _⟩
    · rw [ltDirective_iff hx hy] at hab
      rcases hab with h | ⟨rfl, hbala, hbalb⟩
      · exact ⟨dtle_of_dtlt h, fun he => absurd (he ▸ h) (dtlt_irrefl y)⟩
      · exact ⟨dtle_refl x, fun _ hb2 => by rw [hb2] at hbalb; cases hbalb⟩
    · have hab2 : ¬ (dtlt x y ∨ (x = y ∧ isBalanceType a.dtype = true ∧
          isBalanceType b.dtype = false)) := by
        rw [← ltDirective_iff hx hy]; simp [hab]
      have hba2 : ¬ (dtlt y x ∨ (y = x ∧ isBalanceType b.dtype = true ∧
          isBalanceType a.dtype = false)) := by
        rw [← ltDirective_iff hy hx]; simp [hba]
      obtain ⟨hnxy, _⟩ := not_or.1 hab2
      obtain ⟨hnyx, hnb2⟩ := not_or.1 hba2
      have hxy : x = y := by
        rcases dtlt_trichotomy x y with h | h | h
        · exact absurd h hnxy
        · exact h
        · exact absurd h hnyx
      subst hxy
      refine ⟨dtle_refl x, fun _ hbb => ?_⟩
      by_contra hban
      exact hnb2 ⟨rfl, hbb, by simpa using hban⟩
  · intro t bit
    refine rustSort_filter ltDirective _ l ?_
    intro a _ b _ hpa hpb
    rw [Bool.and_eq_true, decide_eq_true_iff, decide_eq_true_iff] at hpa hpb
    obtain ⟨ha, hba⟩ := hpa
    obtain ⟨hb, hbb⟩ := hpb
    rw [Bool.eq_false_iff]
    intro hab
    rw [ltDirective_iff ha hb] at hab
    rcases hab with h | ⟨_, h1, h2⟩
    · exact dtlt_irrefl t h
    · rw [hba, hbb] at *
      rw [h1] at h2
      cases h2

/-- Closed instance for C5: the hypothesis and conclusion of
`sort_directives_datetime_spec` at a two-element dated list in which a
Transaction precedes a same-datetime BalanceCheck. -/
theorem sort_directives_datetime_spec_witness :
    (∀ d ∈ ([⟨some ⟨1, 0⟩, .Transaction, 0⟩,
             ⟨some ⟨1, 0⟩, .BalanceCheck, 1⟩] : List SpannedDirective),
      d.datetime ≠ none) ∧
    (sortDirectivesDatetime
        [⟨some ⟨1, 0⟩, .Transaction, 0⟩, ⟨some ⟨1, 0⟩, .BalanceCheck, 1⟩]).Perm
      [⟨some ⟨1, 0⟩, .Transaction, 0⟩, ⟨some ⟨1, 0⟩, .BalanceCheck, 1⟩] :=
  ⟨by decide, (sort_directives_datetime_spec _ (by decide)).1⟩

/-! ## C3: get_price -/

/-- C3: `get_price(at, from, to)` returns `none` exactly when no stored
price matches source, target and `datetime ≤ at`; and any returned price
is a matching one whose datetime is less than or equal to the datetime of
every matching stored price, i.e. the earliest one. -/
theorem get_price_earliest (store : Store) (date : DT) (fc tc : String) :
    (getPrice store date fc tc = none ↔
      ((store.prices.filter (fun p => decide (p.commodity = fc))).filter
          (fun p => decide (p.target_commodity = tc))).filter
          (fun p => decide (dtle p.datetime date)) = []) ∧
    (∀ p, getPrice store date fc tc = some p →
      (p ∈ store.prices ∧ p.commodity = fc ∧ p.target_commodity = tc ∧
        dtle p.datetime date) ∧
      (∀ q ∈ store.prices, q.commodity = fc → q.target_commodity = tc →
        dtle q.datetime date → dtle p.datetime q.datetime)) := by
  have hperm := rustSort_perm
    (fun a b : PriceDomain => decide (dtlt a.datetime b.datetime))
    (((store.prices.filter (fun p => decide (p.commodity = fc))).filter
        (fun p => decide (p.target_commodity = tc))).filter
        (fun p => decide (dtle p.datetime date)))
  constructor
  · unfold getPrice
    rw [List.head?_eq_none_iff]
    rw [← List.length_eq_zero, hperm.length_eq, List.length_eq_zero]
  · intro p hp
    unfold getPrice at hp
    set m := ((store.prices.filter (fun p => decide (p.commodity = fc))).filter
        (fun p => decide (p.target_commodity = tc))).filter
        (fun p => decide (dtle p.datetime date)) with hm
    have hmem_m : ∀ q, q ∈ m ↔ (q ∈ store.prices ∧ q.commodity = fc ∧
        q.target_commodity = tc ∧ dtle q.datetime date) := by
      intro q
      rw [hm]
      simp only [List.mem_filter, decide_eq_true_iff]
      tauto
    have hpw := rustSort_pairwise
      (fun a b : PriceDomain => decide (dtlt a.datetime b.datetime))
      (fun _ _ => True) (fun _ => True) m (fun _ _ => trivial)
      (List.pairwise_iff_forall_sublist.2 (fun _ => trivial))
      (fun a _ b _ h1 h2 =>
        dtlt_asymm (decide_eq_true_iff.1 h1) (decide_eq_true_iff.1 h2))
      (fun a _ b _ c _ h1 => by
        rcases dtlt_negtrans (y := b.datetime) (decide_eq_true_iff.1 h1) with
          h | h
        · exact Or.inl (decide_eq_true_iff.2 h)
        · exact Or.inr (decide_eq_true_iff.2 h))
    rcases hs : rustSort
        (fun a b : PriceDomain => decide (dtlt a.datetime b.datetime)) m with
      _ | ⟨p0, rest⟩
    · rw [hs] at hp; cases hp
    · rw [hs] at hp
      simp only [List.head?_cons, Option.some.injEq] at hp
      subst hp
      have hpmem : p0 ∈ m := by
        rw [← hperm.mem_iff, hs]
        exact List.mem_cons_self p0 rest
      refine ⟨(hmem_m p0).1 hpmem, ?_⟩
      intro q hq hqc hqt hqd
      have hqm : q ∈ m := (hmem_m q).2 ⟨hq, hqc, hqt, hqd⟩
      have hqs : q ∈ p0 :: rest := by
        rw [← hs, hperm.mem_iff]
        exact hqm
      rcases List.mem_cons.1 hqs with rfl | hqrest
      · exact dtle_refl _
      · rw [hs] at hpw
        have := (List.pairwise_cons.1 hpw).1 q hqrest
        rcases this with h | ⟨_, h2, _⟩
        · exact dtle_of_dtlt (decide_eq_true_iff.1 h)
        · exact not_dtlt_iff.1 (fun hcon =>
            (Bool.eq_false_iff.1 h2) (decide_eq_true_iff.2 hcon))

/-- Closed instance for C3: on a store holding two USD→CNY prices dated
day 20 and day 10, `get_price` at day 30 returns the day-10 (earliest)
price, which is a member, matches, and is minimal. -/
theorem get_price_earliest_witness :
    getPrice { emptyStore with prices :=
        [⟨⟨20, 0⟩, "USD", 7, "CNY"⟩, ⟨⟨10, 0⟩, "USD", 6, "CNY"⟩] }
      ⟨30, 0⟩ "USD" "CNY" = some ⟨⟨10, 0⟩, "USD", 6, "CNY"⟩ ∧
    ((⟨⟨10, 0⟩, "USD", 6, "CNY"⟩ : PriceDomain) ∈
        ({ emptyStore with prices :=
          [⟨⟨20, 0⟩, "USD", 7, "CNY"⟩, ⟨⟨10, 0⟩, "USD", 6, "CNY"⟩] } :
          Store).prices ∧
      (⟨⟨10, 0⟩, "USD", 6, "CNY"⟩ : PriceDomain).commodity = "USD" ∧
      (⟨⟨10, 0⟩, "USD", 6, "CNY"⟩ : PriceDomain).target_commodity = "CNY" ∧
      dtle (⟨⟨10, 0⟩, "USD", 6, "CNY"⟩ : PriceDomain).datetime ⟨30, 0⟩) ∧
    (∀ q ∈ ({ emptyStore with prices :=
          [⟨⟨20, 0⟩, "USD", 7, "CNY"⟩, ⟨⟨10, 0⟩, "USD", 6, "CNY"⟩] } :
          Store).prices,
      q.commodity = "USD" → q.target_commodity = "CNY" →
      dtle q.datetime ⟨30, 0⟩ →
      dtle (⟨⟨10, 0⟩, "USD", 6, "CNY"⟩ : PriceDomain).datetime q.datetime) := by
  refine ⟨by decide, ?_, ?_⟩
  · exact ((get_price_earliest _ ⟨30, 0⟩ "USD" "CNY").2 _ (by decide)).1
  · exact ((get_price_earliest _ ⟨30, 0⟩ "USD" "CNY").2 _ (by decide)).2

/-! ## C1: is_transaction_balanced -/

/-- C1: whenever the postings inventory of a transaction is computed
successfully, `is_transaction_balanced` returns `true` exactly when every
currency's total in that inventory rounds to zero under the declared
commodity's precision and rounding mode, the precision falling back to
`default_balance_tolerance_precision` when the commodity is undeclared and
the rounding mode falling back to `default_rounding` when the commodity is
undeclared or declares no rounding. -/
theorem is_transaction_balanced_iff (opts : InMemoryOptions) (store : Store)
    (txn : Txn) (inv : List (Currency × ℚ))
    (h : getPostingsInventory txn = .ok inv) :
    isTransactionBalanced opts store txn = true ↔
      ∀ ct ∈ inv,
        roundWith ct.2
          (match alookup ct.1 store.commodities with
           | some c => c.precision
           | none => opts.default_balance_tolerance_precision)
          (match (alookup ct.1 store.commodities).bind (fun c => c.rounding) with
           | some s => decide (s = "RoundUp")
           | none => opts.default_rounding.isUp) = 0 := by
  unfold isTransactionBalanced
  rw [h]
  simp only [List.all_eq_true]
  refine forall_congr' fun ct => ?_
  refine imp_congr_right fun _ => ?_
  cases halo : alookup ct.1 store.commodities with
  | none => simp [halo]
  | some c => cases hr : c.rounding <;> simp [halo, hr]

/-- Closed instance for C1: a one-posting CNY transaction, against a store
declaring CNY at precision 2 with no rounding mode. -/
theorem is_transaction_balanced_iff_witness :
    getPostingsInventory ⟨[⟨"Assets:A", some ⟨-10, "CNY"⟩⟩]⟩ =
      .ok [("CNY", -10)] ∧
    (isTransactionBalanced ⟨2, .RoundDown⟩
        { emptyStore with commodities := [("CNY", ⟨"CNY", 2, none, none, none⟩)] }
        ⟨[⟨"Assets:A", some ⟨-10, "CNY"⟩⟩]⟩ = true ↔
      ∀ ct ∈ ([("CNY", -10)] : List (Currency × ℚ)),
        roundWith ct.2
          (match alookup ct.1 ({ emptyStore with commodities :=
              [("CNY", ⟨"CNY", 2, none, none, none⟩)] } : Store).commodities with
           | some c => c.precision
           | none => (2 : ℤ))
          (match (alookup ct.1 ({ emptyStore with commodities :=
              [("CNY", ⟨"CNY", 2, none, none, none⟩)] } :
                Store).commodities).bind (fun c => c.rounding) with
           | some s => decide (s = "RoundUp")
           | none => Rounding.isUp .RoundDown) = 0) :=
  ⟨by rfl, is_transaction_balanced_iff ⟨2, .RoundDown⟩ _ _ _ (by rfl)⟩

/-! ## C8: insert_or_update_account -/

theorem alookup_accountsUpsert_self (accounts : List (Account × AccountDomain))
    (datetime : DT) (account : Account) (status : AccountStatus)
    (aliasName : Option String) (old : AccountDomain)
    (h : alookup account accounts = some old) :
    alookup account (accountsUpsert accounts datetime account status aliasName) =
      some { old with status := status } := by
  induction accounts with
  | nil => cases h
  | cons kv rest ih =>
    obtain ⟨k, v⟩ := kv
    by_cases hk : k = account
    · subst hk
      simp [alookup] at h
      subst h
      simp [accountsUpsert, alookup]
    · simp only [alookup, if_neg hk] at h
      simp [accountsUpsert, alookup, hk, ih h]

theorem alookup_accountsUpsert_other (accounts : List (Account × AccountDomain))
    (datetime : DT) (account : Account) (status : AccountStatus)
    (aliasName : Option String) (b : Account) (hb : b ≠ account) :
    alookup b (accountsUpsert accounts datetime account status aliasName) =
      alookup b accounts := by
  induction accounts with
  | nil =>
    simp [accountsUpsert, alookup, Ne.symm hb]
  | cons kv rest ih =>
    obtain ⟨k, v⟩ := kv
    by_cases hk : k = account
    · subst hk
      simp [accountsUpsert, alookup, Ne.symm hb]
    · simp only [accountsUpsert, if_neg hk]
      by_cases hkb : k = b
      · simp [alookup, hkb]
      · simp [alookup, hkb, ih]

/-- C8: updating an account that is already stored changes only the status
field of its record — its date, type, name and alias are those of the old
record — and leaves every other account's record (and every other store
table) untouched; the directive's datetime is never written over an
existing record's date. -/
theorem insert_or_update_account_frame (store : Store) (datetime : DT)
    (account : Account) (status : AccountStatus) (aliasName : Option String)
    (old : AccountDomain) (h : alookup account store.accounts = some old) :
    alookup account
        (insertOrUpdateAccount store datetime account status aliasName).accounts =
      some { old with status := status } ∧
    (∀ b : Account, b ≠ account →
      alookup b
          (insertOrUpdateAccount store datetime account status aliasName).accounts =
        alookup b store.accounts) ∧
    (insertOrUpdateAccount store datetime account status aliasName).postings =
      store.postings := by
  refine ⟨?_, ?_, rfl⟩
  · exact alookup_accountsUpsert_self store.accounts datetime account status
      aliasName old h
  · intro b hb
    exact alookup_accountsUpsert_other store.accounts datetime account status
      aliasName b hb

/-- Closed instance for C8: re-opening `Assets:A`, stored with an old date
and alias, only flips the status. -/
theorem insert_or_update_account_frame_witness :
    alookup ⟨.Assets, "Assets:A"⟩
        ({ emptyStore with accounts := [(⟨.Assets, "Assets:A"⟩,
          ⟨⟨3, 0⟩, "Assets", "Assets:A", .Close, some "cash"⟩)] } : Store).accounts =
      some ⟨⟨3, 0⟩, "Assets", "Assets:A", .Close, some "cash"⟩ ∧
    alookup ⟨.Assets, "Assets:A"⟩
        (insertOrUpdateAccount
          { emptyStore with accounts := [(⟨.Assets, "Assets:A"⟩,
            ⟨⟨3, 0⟩, "Assets", "Assets:A", .Close, some "cash"⟩)] }
          ⟨9, 9⟩ ⟨.Assets, "Assets:A"⟩ .Open none).accounts =
      some ⟨⟨3, 0⟩, "Assets", "Assets:A", .Open, some "cash"⟩ :=
  ⟨rfl,
    (insert_or_update_account_frame
      { emptyStore with accounts := [(⟨.Assets, "Assets:A"⟩,
        ⟨⟨3, 0⟩, "Assets", "Assets:A", .Close, some "cash"⟩)] }
      ⟨9, 9⟩ ⟨.Assets, "Assets:A"⟩ .Open none
      ⟨⟨3, 0⟩, "Assets", "Assets:A", .Close, some "cash"⟩ rfl).1⟩

/-! ## C9: insert_transaction_posting -/

/-- C9: with an unknown `trx_id` the call panics (a precondition
violation, recording no semantic error); with a known `trx_id` the lookup
cannot fail, and the call returns `InvalidAccount` exactly when the
account name does not parse, otherwise appending the posting with
`trx_sequence` and `trx_datetime` copied from the stored header. -/
theorem insert_transaction_posting_spec (store : Store)
    (trx_id account_name : String) (unit cost : Option Amount)
    (ia pa aa : Amount) :
    (alookup trx_id store.transactions = none →
      insertTransactionPosting store trx_id account_name unit cost ia pa aa =
        none) ∧
    (∀ trx, alookup trx_id store.transactions = some trx →
      (parseAccount account_name = none →
        insertTransactionPosting store trx_id account_name unit cost ia pa aa =
          some (.error .InvalidAccount)) ∧
      (∀ acc, parseAccount account_name = some acc →
        insertTransactionPosting store trx_id account_name unit cost ia pa aa =
          some (.ok { store with postings := store.postings ++
            [⟨trx_id, trx.sequence, trx.datetime, acc, unit, cost,
              ia, pa, aa⟩] }))) := by
  refine ⟨fun h => ?_, fun trx htrx => ⟨fun hp => ?_, fun acc hp => ?_⟩⟩
  · simp [insertTransactionPosting, h]
  · simp [insertTransactionPosting, htrx, hp]
  · simp [insertTransactionPosting, htrx, hp]

/-- Closed instance for C9: a store holding transaction `t1`; a valid
account name appends the posting with the header's sequence and datetime. -/
theorem insert_transaction_posting_spec_witness :
    alookup "t1" ({ emptyStore with transactions := [("t1",
        ⟨"t1", 7, ⟨5, 0⟩, .Completed, none, none, ⟨0, 0, "", none⟩, [], []⟩)] } :
        Store).transactions =
      some ⟨"t1", 7, ⟨5, 0⟩, .Completed, none, none, ⟨0, 0, "", none⟩, [], []⟩ ∧
    parseAccount "Assets:A" = some ⟨.Assets, "Assets:A"⟩ ∧
    insertTransactionPosting
        { emptyStore with transactions := [("t1",
          ⟨"t1", 7, ⟨5, 0⟩, .Completed, none, none, ⟨0, 0, "", none⟩, [], []⟩)] }
        "t1" "Assets:A" none none ⟨1, "CNY"⟩ ⟨0, "CNY"⟩ ⟨1, "CNY"⟩ =
      some (.ok { emptyStore with
        transactions := [("t1",
          ⟨"t1", 7, ⟨5, 0⟩, .Completed, none, none, ⟨0, 0, "", none⟩, [], []⟩)],
        postings := [⟨"t1", 7, ⟨5, 0⟩, ⟨.Assets, "Assets:A"⟩, none, none,
          ⟨1, "CNY"⟩, ⟨0, "CNY"⟩, ⟨1, "CNY"⟩⟩] }) :=
  ⟨rfl, by decide,
    ((insert_transaction_posting_spec
      { emptyStore with transactions := [("t1",
        ⟨"t1", 7, ⟨5, 0⟩, .Completed, none, none, ⟨0, 0, "", none⟩, [], []⟩)] }
      "t1" "Assets:A" none none
      ⟨1, "CNY"⟩ ⟨0, "CNY"⟩ ⟨1, "CNY"⟩).2
      ⟨"t1", 7, ⟨5, 0⟩, .Completed, none, none, ⟨0, 0, "", none⟩, [], []⟩
      rfl).2 ⟨.Assets, "Assets:A"⟩ (by decide)⟩

/-! ## C4: update_account_lot matches on price alone -/

/-- C4 (failing input, code bug): the store holds one BTC lot with no
price under `Assets:A`; calling `update_account_lot` for currency ETH
with no price and amount 5 overwrites the BTC lot's amount — the
`find(|lot| lot.price.eq(&price))` inspects only the `price` field — so no
ETH lot is appended, contradicting the claimed/specified upsert key
`(commodity, cost)` (which the sibling read path `account_lot` does use). -/
theorem update_account_lot_ignores_commodity :
    updateAccountLot
      { emptyStore with commodity_lots :=
        [(⟨.Assets, "Assets:A"⟩, [⟨"BTC", none, 1, none⟩])] }
      "Assets:A" "ETH" none 5 =
    .ok { emptyStore with commodity_lots :=
      [(⟨.Assets, "Assets:A"⟩, [⟨"BTC", none, 5, none⟩])] } := by
  rfl

/-! ## C7: option merging and resolution -/

theorem alookup_aupsert_self {β : Type} {α : Type} [DecidableEq α]
    (k : α) (v : β) (m : List (α × β)) :
    alookup k (aupsert k v m) = some v := by
  induction m with
  | nil => simp [aupsert, alookup]
  | cons kv rest ih =>
    obtain ⟨k0, v0⟩ := kv
    by_cases hk : k0 = k
    · subst hk
      simp [aupsert, alookup]
    · simp [aupsert, alookup, hk, ih]

theorem alookup_aupsert_other {β : Type} {α : Type} [DecidableEq α]
    (k0 k : α) (v : β) (m : List (α × β)) (hk : k0 ≠ k) :
    alookup k (aupsert k0 v m) = alookup k m := by
  induction m with
  | nil => simp [aupsert, alookup, hk]
  | cons kv rest ih =>
    obtain ⟨k1, v1⟩ := kv
    by_cases hk1 : k1 = k0
    · subst hk1
      simp [aupsert, alookup, hk]
    · by_cases hk1b : k1 = k
      · subst hk1b
        simp [aupsert, alookup, hk1]
      · simp [aupsert, alookup, hk1, hk1b, ih]

theorem alookup_optStep (m0 : List (String × String)) (d : MetaDirective)
    (k : String) :
    alookup k (optStep m0 d) = (firstOpt k [d]).or (alookup k m0) := by
  cases d with
  | Other p => simp [optStep, firstOpt]
  | Opt k0 v =>
    by_cases hk : k0 = k
    · subst hk
      simp [optStep, firstOpt, alookup_aupsert_self]
    · simp [optStep, firstOpt, hk, alookup_aupsert_other k0 k v m0 hk]

theorem firstOpt_append (k : String) (l1 l2 : List MetaDirective) :
    firstOpt k (l1 ++ l2) = (firstOpt k l1).or (firstOpt k l2) := by
  induction l1 with
  | nil => simp [firstOpt]
  | cons d rest ih =>
    cases d with
    | Other p => simpa [firstOpt] using ih
    | Opt k0 v =>
      by_cases hk : k0 = k
      · simp [firstOpt, hk]
      · simpa [firstOpt, hk] using ih

theorem alookup_foldl_optStep (l : List MetaDirective)
    (m0 : List (String × String)) (k : String) :
    alookup k (l.foldl optStep m0) =
      (firstOpt k l.reverse).or (alookup k m0) := by
  induction l generalizing m0 with
  | nil => simp [firstOpt]
  | cons d rest ih =>
    rw [show (d :: rest).foldl optStep m0 = rest.foldl optStep (optStep m0 d)
      from rfl]
    rw [ih (optStep m0 d), alookup_optStep]
    rw [show (d :: rest).reverse = rest.reverse ++ [d] by simp]
    rw [firstOpt_append]
    cases firstOpt k rest.reverse <;> simp [Option.or]

theorem firstOpt_dedupRun (k : String) :
    ∀ (rest : List MetaDirective) (last : MetaDirective),
      (∀ v, last ≠ .Opt k v) →
      firstOpt k (dedupRun metaEq last rest) = firstOpt k rest := by
  intro rest
  induction rest with
  | nil => intro last _; rfl
  | cons y rest2 ih =>
    intro last hlast
    by_cases he : metaEq last y = true
    · cases last with
      | Other p => simp [metaEq] at he
      | Opt k0 v0 =>
        cases y with
        | Other p2 => simp [metaEq] at he
        | Opt k1 v1 =>
          simp only [metaEq, decide_eq_true_iff] at he
          subst he
          have hk0 : k0 ≠ k := fun h => hlast v0 (by rw [h])
          rw [show dedupRun metaEq (.Opt k0 v0) (.Opt k0 v1 :: rest2) =
            dedupRun metaEq (.Opt k0 v0) rest2 by simp [dedupRun, metaEq]]
          rw [ih (.Opt k0 v0) hlast]
          simp [firstOpt, hk0]
    · have he2 : metaEq last y = false := by simpa using he
      simp only [dedupRun, he2]
      rw [if_neg (by simp)]
      cases y with
      | Other p2 =>
        simp only [firstOpt]
        exact ih (.Other p2) (fun v h => by cases h)
      | Opt k1 v1 =>
        by_cases hk1 : k1 = k
        · simp [firstOpt, hk1]
        · simp only [firstOpt, if_neg hk1]
          exact ih (.Opt k1 v1) (fun v h => hk1 (by cases h; rfl))

theorem firstOpt_dedupBy (k : String) (m : List MetaDirective) :
    firstOpt k (dedupBy metaEq m) = firstOpt k m := by
  cases m with
  | nil => rfl
  | cons x rest =>
    cases x with
    | Other p =>
      simp only [dedupBy, firstOpt]
      exact firstOpt_dedupRun k rest (.Other p) (fun v h => by cases h)
    | Opt k0 v0 =>
      by_cases hk : k0 = k
      · simp [dedupBy, firstOpt, hk]
      · simp only [dedupBy, firstOpt, if_neg hk]
        exact firstOpt_dedupRun k rest (.Opt k0 v0)
          (fun v h => hk (by cases h; rfl))

/-- C7 (amended): after a full load, `option(key)` returns the value of
the last occurrence of that key in the builtin defaults followed by the
user metas — in particular a user option always overrides a builtin
default with the same key.  (The merged meta list itself may retain more
than one `Option` directive per key; see the counterexample.) -/
theorem option_last_occurrence_wins (defaults metas : List MetaDirective)
    (k : String) :
    alookup k (processOptions defaults metas) = lastOpt (defaults ++ metas) k := by
  unfold processOptions lastOpt mergedMetas
  rw [alookup_foldl_optStep, List.reverse_reverse, firstOpt_dedupBy]
  cases firstOpt k (defaults ++ metas).reverse <;> simp [alookup, Option.or]

/-- C7 (counterexample): with user metas `option "a" 1; option "b" 2;
option "a" 3`, the merged meta list of `Ledger::process` retains TWO
`Option` directives with key "a" — itertools `dedup_by` removes only
consecutive duplicates of the reversed list, so non-adjacent occurrences
of the same key all survive, refuting "at most one Option directive per
key". -/
theorem merged_metas_duplicate_key :
    ((mergedMetas specDefaultOptions
        [.Opt "a" "1", .Opt "b" "2", .Opt "a" "3"]).filter
      (fun d => match d with
        | .Opt k _ => decide (k = "a")
        | .Other _ => false)).length = 2 := by
  decide

/-! ## C10: trx_tags and trx_links on an unknown transaction -/

/-- C10: for a syntactically valid transaction UUID that is not a key of
the transactions table, `trx_tags` and `trx_links` both return the empty
list (no panic, no recorded error). -/
theorem trx_tags_links_missing (store : Store) (s : String)
    (h1 : isValidUuid s = true)
    (h2 : alookup (String.mk (s.toList.map Char.toLower))
      store.transactions = none) :
    trxTags store s = some [] ∧ trxLinks store s = some [] := by
  simp only [String.toList] at h2
  constructor <;> simp [trxTags, trxLinks, parseUuid, h1, h2]

/-- Closed instance for C10: the nil UUID against the empty store. -/
theorem trx_tags_links_missing_witness :
    isValidUuid "00000000-0000-0000-0000-000000000000" = true ∧
    (trxTags emptyStore "00000000-0000-0000-0000-000000000000" = some [] ∧
      trxLinks emptyStore "00000000-0000-0000-0000-000000000000" = some []) :=
  ⟨by decide, trx_tags_links_missing emptyStore
    "00000000-0000-0000-0000-000000000000" (by decide) rfl⟩

/-! ## C2: single_account_balances

The BTreeMap layer first: `innerInsert` keeps keys unique, and popping the
last entry of a map built from postings with non-decreasing dates returns
the date and amount of the last posting inserted. -/

theorem mem_innerInsert {k : Nat} {v : Amount} {m : DatedAmounts}
    {e : Nat × Amount} (h : e ∈ innerInsert k v m) : e = (k, v) ∨ e ∈ m := by
  induction m with
  | nil => simpa [innerInsert] using h
  | cons kv rest ih =>
    obtain ⟨k0, v0⟩ := kv
    by_cases hk : k0 = k
    · subst hk
      simp only [innerInsert, if_pos rfl] at h
      rcases List.mem_cons.1 h with rfl | h2
      · exact Or.inl rfl
      · exact Or.inr (List.mem_cons_of_mem _ h2)
    · simp only [innerInsert, if_neg hk] at h
      rcases List.mem_cons.1 h with rfl | h2
      · exact Or.inr (List.mem_cons_self _ _)
      · rcases ih h2 with h3 | h3
        · exact Or.inl h3
        · exact Or.inr (List.mem_cons_of_mem _ h3)

theorem innerInsert_ne_nil (k : Nat) (v : Amount) (m : DatedAmounts) :
    innerInsert k v m ≠ [] := by
  cases m with
  | nil => simp [innerInsert]
  | cons kv rest =>
    obtain ⟨k0, v0⟩ := kv
    by_cases hk : k0 = k <;> simp [innerInsert, hk]

theorem innerInsert_keys (k : Nat) (v : Amount) (m : DatedAmounts) :
    ∀ k2 ∈ (innerInsert k v m).map Prod.fst,
      k2 = k ∨ k2 ∈ m.map Prod.fst := by
  intro k2 hk2
  rw [List.mem_map] at hk2
  obtain ⟨e, he, rfl⟩ := hk2
  rcases mem_innerInsert he with rfl | h2
  · exact Or.inl rfl
  · exact Or.inr (List.mem_map_of_mem Prod.fst h2)

theorem innerInsert_cons_pos (k : Nat) (v v0 : Amount) (rest : DatedAmounts) :
    innerInsert k v ((k, v0) :: rest) = (k, v) :: rest := by
  simp [innerInsert]

theorem innerInsert_cons_neg (k0 k : Nat) (v v0 : Amount) (rest : DatedAmounts)
    (hk : k0 ≠ k) :
    innerInsert k v ((k0, v0) :: rest) = (k0, v0) :: innerInsert k v rest := by
  simp [innerInsert, hk]

theorem innerInsert_keys_nodup (k : Nat) (v : Amount) (m : DatedAmounts)
    (h : (m.map Prod.fst).Nodup) :
    ((innerInsert k v m).map Prod.fst).Nodup := by
  induction m with
  | nil => simp [innerInsert]
  | cons kv rest ih =>
    obtain ⟨k0, v0⟩ := kv
    simp only [List.map_cons, List.nodup_cons] at h
    obtain ⟨hk0, hrest⟩ := h
    by_cases hk : k0 = k
    · subst hk
      rw [innerInsert_cons_pos]
      simp only [List.map_cons, List.nodup_cons]
      exact ⟨hk0, hrest⟩
    · rw [innerInsert_cons_neg k0 k v v0 rest hk]
      simp only [List.map_cons, List.nodup_cons]
      refine ⟨?_, ih hrest⟩
      intro hmem
      rcases innerInsert_keys k v rest k0 hmem with rfl | h2
      · exact hk rfl
      · exact hk0 h2

theorem popLastEntry_cons_of_none {rest : DatedAmounts} (k : Nat) (v : Amount)
    (hrec : popLastEntry rest = none) :
    popLastEntry ((k, v) :: rest) = some (k, v) := by
  simp [popLastEntry, hrec]

theorem popLastEntry_cons_of_some {rest : DatedAmounts} (k : Nat) (v : Amount)
    {k2 : Nat} {v2 : Amount} (hrec : popLastEntry rest = some (k2, v2)) :
    popLastEntry ((k, v) :: rest) =
      if k < k2 then some (k2, v2) else some (k, v) := by
  simp [popLastEntry, hrec]

theorem popLastEntry_mem {m : DatedAmounts} {e : Nat × Amount}
    (h : popLastEntry m = some e) : e ∈ m := by
  induction m generalizing e with
  | nil => cases h
  | cons kv rest ih =>
    obtain ⟨k, v⟩ := kv
    rcases hrec : popLastEntry rest with _ | ⟨k2, v2⟩
    · rw [popLastEntry_cons_of_none k v hrec] at h
      cases h
      exact List.mem_cons_self _ _
    · rw [popLastEntry_cons_of_some k v hrec] at h
      by_cases hlt : k < k2
      · rw [if_pos hlt] at h
        cases h
        exact List.mem_cons_of_mem _ (ih hrec)
      · rw [if_neg hlt] at h
        cases h
        exact List.mem_cons_self _ _

theorem popLastEntry_eq_none_iff {m : DatedAmounts} :
    popLastEntry m = none ↔ m = [] := by
  cases m with
  | nil => simp [popLastEntry]
  | cons kv rest =>
    obtain ⟨k, v⟩ := kv
    rcases hrec : popLastEntry rest with _ | ⟨k2, v2⟩
    · rw [popLastEntry_cons_of_none k v hrec]
      simp
    · rw [popLastEntry_cons_of_some k v hrec]
      by_cases hlt : k < k2 <;> simp [hlt]

theorem popLastEntry_innerInsert_max (k : Nat) (v : Amount) (m : DatedAmounts)
    (hmax : ∀ k2 ∈ m.map Prod.fst, k2 ≤ k) (hnd : (m.map Prod.fst).Nodup) :
    popLastEntry (innerInsert k v m) = some (k, v) := by
  induction m with
  | nil => rfl
  | cons kv rest ih =>
    obtain ⟨k0, v0⟩ := kv
    simp only [List.map_cons, List.nodup_cons] at hnd
    obtain ⟨hk0nm, hndrest⟩ := hnd
    by_cases hk : k0 = k
    · subst hk
      rw [innerInsert_cons_pos]
      rcases hrec : popLastEntry rest with _ | ⟨k2, v2⟩
      · rw [popLastEntry_cons_of_none k0 v hrec]
      · have hk2mem : k2 ∈ rest.map Prod.fst :=
          List.mem_map_of_mem Prod.fst (popLastEntry_mem hrec)
        have hk2le : k2 ≤ k0 := hmax k2 (List.mem_cons_of_mem _ hk2mem)
        rw [popLastEntry_cons_of_some k0 v hrec, if_neg (by omega)]
    · rw [innerInsert_cons_neg k0 k v v0 rest hk]
      have hihres := ih (fun k2 h2 => hmax k2 (List.mem_cons_of_mem _ h2)) hndrest
      have hk0le : k0 ≤ k := hmax k0 (List.mem_cons_self _ _)
      rw [popLastEntry_cons_of_some k0 v0 hihres, if_pos (by omega)]

theorem mem_foldl_innerStepP {l : List PostingDomain} {m0 : DatedAmounts}
    {e : Nat × Amount} (h : e ∈ l.foldl innerStepP m0) :
    e ∈ m0 ∨ ∃ p ∈ l, e = (p.trx_datetime.date, p.after_amount) := by
  induction l generalizing m0 with
  | nil => exact Or.inl h
  | cons p rest ih =>
    rcases ih h with h2 | ⟨q, hq, rfl⟩
    · rcases mem_innerInsert h2 with rfl | h3
      · exact Or.inr ⟨p, List.mem_cons_self _ _, rfl⟩
      · exact Or.inl h3
    · exact Or.inr ⟨q, List.mem_cons_of_mem _ hq, rfl⟩

theorem foldl_innerStepP_keys {l : List PostingDomain} {m0 : DatedAmounts} :
    ∀ k2 ∈ ((l.foldl innerStepP m0).map Prod.fst),
      k2 ∈ m0.map Prod.fst ∨ k2 ∈ l.map (fun p => p.trx_datetime.date) := by
  intro k2 hk2
  rw [List.mem_map] at hk2
  obtain ⟨e, he, rfl⟩ := hk2
  rcases mem_foldl_innerStepP he with h | ⟨p, hp, rfl⟩
  · exact Or.inl (List.mem_map_of_mem Prod.fst h)
  · exact Or.inr (List.mem_map_of_mem _ hp)

theorem foldl_innerStepP_keys_nodup (l : List PostingDomain)
    (m0 : DatedAmounts) (h : (m0.map Prod.fst).Nodup) :
    (((l.foldl innerStepP m0)).map Prod.fst).Nodup := by
  induction l generalizing m0 with
  | nil => exact h
  | cons p rest ih =>
    exact ih (innerStepP m0 p) (innerInsert_keys_nodup _ _ _ h)

theorem foldl_innerStepP_ne_nil (l : List PostingDomain) (m0 : DatedAmounts)
    (h : l ≠ [] ∨ m0 ≠ []) : l.foldl innerStepP m0 ≠ [] := by
  induction l generalizing m0 with
  | nil =>
    rcases h with h | h
    · exact absurd rfl h
    · exact h
  | cons p rest ih =>
    exact ih (innerStepP m0 p) (Or.inr (innerInsert_ne_nil _ _ _))

/-- Popping the last entry of the map built from a date-monotone posting
list returns the last posting's date and after-amount. -/
theorem popLastEntry_foldl_innerStepP (l : List PostingDomain) (hne : l ≠ [])
    (hmono : l.Pairwise (fun p q => p.trx_datetime.date ≤ q.trx_datetime.date)) :
    popLastEntry (l.foldl innerStepP []) =
      some ((l.getLast hne).trx_datetime.date, (l.getLast hne).after_amount) := by
  induction l using List.reverseRecOn with
  | nil => exact absurd rfl hne
  | append_singleton l1 p ih =>
    clear ih
    have hmax : ∀ k2 ∈ ((l1.foldl innerStepP []).map Prod.fst),
        k2 ≤ p.trx_datetime.date := by
      intro k2 hk2
      rcases foldl_innerStepP_keys k2 hk2 with h | h
      · simp at h
      · rw [List.mem_map] at h
        obtain ⟨q, hq, rfl⟩ := h
        exact (List.pairwise_append.1 hmono).2.2 q hq p (List.mem_singleton_self p)
    have hnd : ((l1.foldl innerStepP []).map Prod.fst).Nodup :=
      foldl_innerStepP_keys_nodup l1 [] (by simp)
    rw [List.foldl_append]
    rw [show List.foldl innerStepP (List.foldl innerStepP [] l1) [p] =
      innerInsert p.trx_datetime.date p.after_amount (l1.foldl innerStepP [])
      from rfl]
    rw [popLastEntry_innerInsert_max _ _ _ hmax hnd]
    rw [List.getLast_append]
    simp

/-! The outer IndexMap layer: the per-currency map of the fold equals the
inner fold over the currency's postings, keys stay unique, and every
stored amount carries its entry's currency. -/

theorem outerStep_cons_pos (k : Currency) (m : DatedAmounts)
    (rest : CurrencyDated) (p : PostingDomain)
    (hk : k = p.after_amount.currency) :
    outerStep ((k, m) :: rest) p =
      (k, innerInsert p.trx_datetime.date p.after_amount m) :: rest := by
  simp [outerStep, hk]

theorem outerStep_cons_neg (k : Currency) (m : DatedAmounts)
    (rest : CurrencyDated) (p : PostingDomain)
    (hk : k ≠ p.after_amount.currency) :
    outerStep ((k, m) :: rest) p = (k, m) :: outerStep rest p := by
  simp [outerStep, hk]

theorem alookup_outerStep (acc : CurrencyDated) (p : PostingDomain)
    (c : Currency) :
    alookup c (outerStep acc p) =
      if c = p.after_amount.currency then
        some (innerStepP ((alookup c acc).getD []) p)
      else alookup c acc := by
  induction acc with
  | nil =>
    by_cases hc : c = p.after_amount.currency
    · subst hc
      simp [outerStep, alookup, innerStepP]
    · simp [outerStep, alookup, hc, Ne.symm hc]
  | cons kv rest ih =>
    obtain ⟨k, m⟩ := kv
    by_cases hk : k = p.after_amount.currency
    · rw [outerStep_cons_pos k m rest p hk]
      by_cases hc : c = k
      · have hcc : c = p.after_amount.currency := hc.trans hk
        rw [if_pos hcc]
        rw [show alookup c ((k, innerInsert p.trx_datetime.date p.after_amount m)
            :: rest) = some (innerInsert p.trx_datetime.date p.after_amount m) by
          simp [alookup, hc.symm]]
        rw [show alookup c ((k, m) :: rest) = some m by simp [alookup, hc.symm]]
        rfl
      · have hcc : ¬ c = p.after_amount.currency := fun h => hc (h.trans hk.symm)
        rw [if_neg hcc]
        have hkc : ¬ k = c := fun h => hc h.symm
        rw [show alookup c ((k, innerInsert p.trx_datetime.date p.after_amount m)
            :: rest) = alookup c rest by simp [alookup, hkc]]
        rw [show alookup c ((k, m) :: rest) = alookup c rest by
          simp [alookup, hkc]]
    · rw [outerStep_cons_neg k m rest p hk]
      by_cases hc : k = c
      · have hcc : ¬ c = p.after_amount.currency := fun h => hk (hc.trans h)
        rw [if_neg hcc]
        simp [alookup, hc]
      · rw [show alookup c ((k, m) :: outerStep rest p) =
            alookup c (outerStep rest p) by simp [alookup, hc]]
        rw [show alookup c ((k, m) :: rest) = alookup c rest by
          simp [alookup, hc]]
        exact ih

theorem alookup_foldl_outerStep (l : List PostingDomain) (acc : CurrencyDated)
    (c : Currency) :
    alookup c (l.foldl outerStep acc) =
      if (l.filter (fun p => decide (p.after_amount.currency = c))) = [] then
        alookup c acc
      else
        some ((l.filter (fun p => decide (p.after_amount.currency = c))).foldl
          innerStepP ((alookup c acc).getD [])) := by
  induction l generalizing acc with
  | nil => simp
  | cons p rest ih =>
    rw [show (p :: rest).foldl outerStep acc = rest.foldl outerStep (outerStep acc p)
      from rfl]
    rw [ih (outerStep acc p)]
    by_cases hc : p.after_amount.currency = c
    · subst hc
      have hfilter : (p :: rest).filter
          (fun q => decide (q.after_amount.currency = p.after_amount.currency)) =
          p :: rest.filter
            (fun q => decide (q.after_amount.currency = p.after_amount.currency)) := by
        simp [List.filter_cons]
      have hstep : alookup p.after_amount.currency (outerStep acc p) =
          some (innerStepP ((alookup p.after_amount.currency acc).getD []) p) := by
        rw [alookup_outerStep]
        simp
      by_cases hrest : rest.filter
          (fun q => decide (q.after_amount.currency = p.after_amount.currency)) = []
      · simp [hfilter, hrest, hstep]
      · simp [hfilter, hrest, hstep]
    · have hfilter : (p :: rest).filter
          (fun q => decide (q.after_amount.currency = c)) =
          rest.filter (fun q => decide (q.after_amount.currency = c)) := by
        simp [List.filter_cons, hc]
      have hstep : alookup c (outerStep acc p) = alookup c acc := by
        rw [alookup_outerStep, if_neg (fun h => hc h.symm)]
      rw [hstep, hfilter]

theorem outerStep_keys (acc : CurrencyDated) (p : PostingDomain) :
    (outerStep acc p).map Prod.fst =
      if p.after_amount.currency ∈ acc.map Prod.fst then acc.map Prod.fst
      else acc.map Prod.fst ++ [p.after_amount.currency] := by
  induction acc with
  | nil => simp [outerStep]
  | cons kv rest ih =>
    obtain ⟨k, m⟩ := kv
    by_cases hk : k = p.after_amount.currency
    · subst hk
      simp [outerStep]
    · rw [show outerStep ((k, m) :: rest) p = (k, m) :: outerStep rest p by
        simp [outerStep, hk]]
      by_cases hmem : p.after_amount.currency ∈ rest.map Prod.fst
      · simp [ih, hmem, Ne.symm hk]
      · simp [ih, hmem, Ne.symm hk]

theorem foldl_outerStep_keys_nodup (l : List PostingDomain) :
    ∀ acc : CurrencyDated, (acc.map Prod.fst).Nodup →
      ((l.foldl outerStep acc).map Prod.fst).Nodup := by
  induction l with
  | nil => exact fun acc h => h
  | cons p rest ih =>
    intro acc h
    refine ih (outerStep acc p) ?_
    rw [outerStep_keys]
    by_cases hmem : p.after_amount.currency ∈ acc.map Prod.fst
    · simpa [hmem] using h
    · rw [if_neg hmem]
      simp [List.nodup_append, h, hmem]

theorem foldl_outerStep_entries (l : List PostingDomain) :
    ∀ acc : CurrencyDated,
      (∀ ce ∈ acc, ce.2 ≠ [] ∧ ∀ da ∈ ce.2, da.2.currency = ce.1) →
      ∀ ce ∈ l.foldl outerStep acc,
        ce.2 ≠ [] ∧ ∀ da ∈ ce.2, da.2.currency = ce.1 := by
  induction l with
  | nil => exact fun acc h => h
  | cons p rest ih =>
    intro acc h
    refine ih (outerStep acc p) ?_
    clear ih
    induction acc with
    | nil =>
      intro ce hce
      simp only [outerStep, List.mem_singleton] at hce
      subst hce
      refine ⟨innerInsert_ne_nil _ _ _, ?_⟩
      intro da hda
      rcases mem_innerInsert hda with rfl | h2
      · rfl
      · simp at h2
    | cons kv rest2 ih2 =>
      obtain ⟨k, m⟩ := kv
      have hhead := h (k, m) (List.mem_cons_self _ _)
      have htail : ∀ ce ∈ rest2, ce.2 ≠ [] ∧ ∀ da ∈ ce.2, da.2.currency = ce.1 :=
        fun ce hce => h ce (List.mem_cons_of_mem _ hce)
      by_cases hk : k = p.after_amount.currency
      · intro ce hce
        rw [outerStep_cons_pos k m rest2 p hk] at hce
        rcases List.mem_cons.1 hce with rfl | hce2
        · refine ⟨innerInsert_ne_nil _ _ _, ?_⟩
          intro da hda
          rcases mem_innerInsert hda with rfl | h2
          · exact hk.symm
          · exact hhead.2 da h2
        · exact htail ce hce2
      · intro ce hce
        rw [outerStep_cons_neg k m rest2 p hk] at hce
        rcases List.mem_cons.1 hce with rfl | hce2
        · exact hhead
        · exact ih2 htail ce hce2

theorem alookup_eq_none_iff {β : Type} {α : Type} [DecidableEq α] (k : α)
    (m : List (α × β)) : alookup k m = none ↔ k ∉ m.map Prod.fst := by
  induction m with
  | nil => simp [alookup]
  | cons kv rest ih =>
    obtain ⟨k0, v0⟩ := kv
    by_cases hk : k0 = k
    · subst hk
      simp [alookup]
    · simp [alookup, hk, ih, Ne.symm hk]

theorem alookup_of_mem_nodup {β : Type} {α : Type} [DecidableEq α]
    {m : List (α × β)} {e : α × β} (hnd : (m.map Prod.fst).Nodup)
    (he : e ∈ m) : alookup e.1 m = some e.2 := by
  induction m with
  | nil => cases he
  | cons kv rest ih =>
    obtain ⟨k0, v0⟩ := kv
    simp only [List.map_cons, List.nodup_cons] at hnd
    obtain ⟨hk0, hrest⟩ := hnd
    rcases List.mem_cons.1 he with rfl | he2
    · simp [alookup]
    · have hne : k0 ≠ e.1 := by
        intro h
        exact hk0 (h ▸ List.mem_map_of_mem Prod.fst he2)
      simp [alookup, hne, ih hrest he2]

/-! The stable sort by `trx_datetime` of a sequence-increasing posting list
is ordered by the lexicographic (datetime, sequence) order. -/

theorem rustSort_postings_pairwise (l : List PostingDomain)
    (hseq : l.Pairwise (fun p q => p.trx_sequence < q.trx_sequence)) :
    (rustSort (fun p q => decide (dtlt p.trx_datetime q.trx_datetime)) l).Pairwise
      postingLexLT := by
  have h := rustSort_pairwise
    (fun p q => decide (dtlt p.trx_datetime q.trx_datetime))
    (fun p q => p.trx_sequence < q.trx_sequence) (fun _ => True) l
    (fun _ _ => trivial) hseq
    (fun a _ b _ h1 h2 =>
      dtlt_asymm (decide_eq_true_iff.1 h1) (decide_eq_true_iff.1 h2))
    (fun a _ b _ c _ h1 => by
      rcases dtlt_negtrans (y := b.trx_datetime) (decide_eq_true_iff.1 h1) with
        h | h
      · exact Or.inl (decide_eq_true_iff.2 h)
      · exact Or.inr (decide_eq_true_iff.2 h))
  refine h.imp ?_
  rintro a b (h1 | ⟨h1, h2, h3⟩)
  · exact Or.inl (decide_eq_true_iff.1 h1)
  · have hnab : ¬ dtlt a.trx_datetime b.trx_datetime := of_decide_eq_false h1
    have hnba : ¬ dtlt b.trx_datetime a.trx_datetime := of_decide_eq_false h2
    rcases dtlt_or_eq_of_not_dtlt hnba with h | h
    · exact absurd h hnab
    · exact Or.inr ⟨h, h3⟩

theorem postingLexLT_date_le {p q : PostingDomain} (h : postingLexLT p q) :
    p.trx_datetime.date ≤ q.trx_datetime.date := by
  rcases h with h | ⟨h, _⟩
  · unfold dtlt at h
    omega
  · rw [h]

/-- C2: on a store whose postings list has strictly increasing
`trx_sequence` (fold order), `single_account_balances` succeeds for a
parseable account name and returns exactly one row per currency that has a
posting of the account; each row carries the `after_amount` (number and
commodity) of the account's posting with the greatest `trx_datetime` in
that currency, ties broken by the greatest `trx_sequence`. -/
theorem single_account_balances_latest (store : Store) (account_name : String)
    (a : Account) (hparse : parseAccount account_name = some a)
    (hseq : store.postings.Pairwise (fun p q => p.trx_sequence < q.trx_sequence)) :
    ∃ rows, singleAccountBalances store account_name = .ok rows ∧
      (rows.map (fun r => r.balance_commodity)).Nodup ∧
      (∀ c : Currency, c ∈ rows.map (fun r => r.balance_commodity) ↔
        ∃ p ∈ store.postings, p.account = a ∧ p.after_amount.currency = c) ∧
      (∀ r ∈ rows, ∃ p ∈ store.postings, p.account = a ∧
        p.after_amount.currency = r.balance_commodity ∧
        r.balance_number = p.after_amount.number ∧
        ∀ q ∈ store.postings, q.account = a →
          q.after_amount.currency = r.balance_commodity → q ≠ p →
          postingLexLT q p) := by
  set filtered := store.postings.filter (fun p => decide (p.account = a)) with
    hfiltered
  set sorted := rustSort (fun p q => decide (dtlt p.trx_datetime q.trx_datetime))
    filtered with hsorted
  set outer := sorted.foldl outerStep [] with houter
  have hperm : sorted.Perm filtered := rustSort_perm _ _
  have hmem_sorted : ∀ q : PostingDomain,
      q ∈ sorted ↔ (q ∈ store.postings ∧ q.account = a) := by
    intro q
    rw [hperm.mem_iff, hfiltered]
    simp [List.mem_filter]
  have hsortedpw : sorted.Pairwise postingLexLT := by
    rw [hsorted]
    exact rustSort_postings_pairwise filtered (hseq.filter _)
  have hgood : ∀ ce ∈ outer, ce.2 ≠ [] ∧ ∀ da ∈ ce.2, da.2.currency = ce.1 := by
    rw [houter]
    exact foldl_outerStep_entries sorted [] (by simp)
  have hkeysnd : (outer.map Prod.fst).Nodup := by
    rw [houter]
    exact foldl_outerStep_keys_nodup sorted [] (by simp)
  have hrowc : ∀ ce ∈ outer, (mkBalanceRow a ce.2).balance_commodity = ce.1 := by
    intro ce hce
    obtain ⟨hne, hcur⟩ := hgood ce hce
    rcases hpop : popLastEntry ce.2 with _ | ⟨d, amt⟩
    · exact absurd (popLastEntry_eq_none_iff.1 hpop) hne
    · have hmem : (d, amt) ∈ ce.2 := popLastEntry_mem hpop
      have : (mkBalanceRow a ce.2).balance_commodity = amt.currency := by
        simp [mkBalanceRow, hpop]
      rw [this]
      exact hcur _ hmem
  have hmapeq : ((outer.map (fun cm => mkBalanceRow a cm.2)).map
      (fun r => r.balance_commodity)) = outer.map Prod.fst := by
    rw [List.map_map]
    exact List.map_congr_left (fun ce hce => hrowc ce hce)
  refine ⟨outer.map (fun cm => mkBalanceRow a cm.2), ?_, ?_, ?_, ?_⟩
  · simp only [singleAccountBalances, hparse]
  · rw [hmapeq]
    exact hkeysnd
  · intro c
    rw [hmapeq]
    have hdecomp := alookup_foldl_outerStep sorted [] c
    rw [← houter] at hdecomp
    constructor
    · intro hc
      by_cases hfil : sorted.filter (fun p => decide (p.after_amount.currency = c)) = []
      · rw [if_pos hfil] at hdecomp
        simp only [alookup] at hdecomp
        exact absurd hc ((alookup_eq_none_iff c outer).1 hdecomp)
      · obtain ⟨q, hq⟩ := List.exists_mem_of_ne_nil _ hfil
        obtain ⟨hq1, hq2⟩ := List.mem_filter.1 hq
        obtain ⟨hqs, hqa⟩ := (hmem_sorted q).1 hq1
        exact ⟨q, hqs, hqa, decide_eq_true_iff.1 hq2⟩
    · rintro ⟨p, hp, hpa, hpc⟩
      have hps : p ∈ sorted := (hmem_sorted p).2 ⟨hp, hpa⟩
      have hfil : sorted.filter (fun p => decide (p.after_amount.currency = c)) ≠ [] := by
        intro h
        have : p ∈ sorted.filter (fun p => decide (p.after_amount.currency = c)) :=
          List.mem_filter.2 ⟨hps, decide_eq_true_iff.2 hpc⟩
        rw [h] at this
        cases this
      rw [if_neg hfil] at hdecomp
      by_contra hnotmem
      rw [← alookup_eq_none_iff c outer] at hnotmem
      rw [hnotmem] at hdecomp
      cases hdecomp
  · intro r hr
    rw [List.mem_map] at hr
    obtain ⟨ce, hce, hrdef⟩ := hr
    obtain ⟨hne, hcur⟩ := hgood ce hce
    have halo : alookup ce.1 outer = some ce.2 := alookup_of_mem_nodup hkeysnd hce
    have hdecomp := alookup_foldl_outerStep sorted [] ce.1
    rw [← houter, halo] at hdecomp
    by_cases hfil : sorted.filter (fun p => decide (p.after_amount.currency = ce.1)) = []
    · rw [if_pos hfil] at hdecomp
      simp [alookup] at hdecomp
    · rw [if_neg hfil] at hdecomp
      have hm : ce.2 = (sorted.filter
          (fun p => decide (p.after_amount.currency = ce.1))).foldl innerStepP [] := by
        simpa [alookup] using hdecomp
      set lf := sorted.filter (fun p => decide (p.after_amount.currency = ce.1)) with hlf
      have hlfpw : lf.Pairwise postingLexLT := hsortedpw.filter _
      have hmono : lf.Pairwise
          (fun p q => p.trx_datetime.date ≤ q.trx_datetime.date) :=
        hlfpw.imp (fun h => postingLexLT_date_le h)
      have hpop := popLastEntry_foldl_innerStepP lf hfil hmono
      have hpopce : popLastEntry ce.2 =
          some ((lf.getLast hfil).trx_datetime.date,
            (lf.getLast hfil).after_amount) := by
        rw [hm]
        exact hpop
      have hr2 : r = ⟨⟨(lf.getLast hfil).trx_datetime.date, 0⟩, a.name, .Open,
          (lf.getLast hfil).after_amount.number,
          (lf.getLast hfil).after_amount.currency⟩ := by
        rw [← hrdef]
        simp [mkBalanceRow, hpopce]
    -- the last element of the currency's sorted run is the reported posting
      have hpl : lf.getLast hfil ∈ lf := List.getLast_mem hfil
      have hps : lf.getLast hfil ∈ sorted := (List.mem_filter.1 hpl).1
      have hcurp : (lf.getLast hfil).after_amount.currency = ce.1 :=
        decide_eq_true_iff.1 (List.mem_filter.1 hpl).2
      obtain ⟨hpstore, hpacc⟩ := (hmem_sorted _).1 hps
      refine ⟨lf.getLast hfil, hpstore, hpacc, ?_, ?_, ?_⟩
      · rw [hr2]
      · rw [hr2]
      · intro q hqstore hqacc hqcur hqne
        have hq_s : q ∈ sorted := (hmem_sorted q).2 ⟨hqstore, hqacc⟩
        have hqc2 : q.after_amount.currency = ce.1 := by
          rw [hqcur, hr2]
          exact hcurp
        have hq_lf : q ∈ lf :=
          List.mem_filter.2 ⟨hq_s, decide_eq_true_iff.2 hqc2⟩
        have hdl : lf.dropLast ++ [lf.getLast hfil] = lf :=
          List.dropLast_append_getLast hfil
        have hpw2 : (lf.dropLast ++ [lf.getLast hfil]).Pairwise postingLexLT := by
          rw [hdl]
          exact hlfpw
        have hqd : q ∈ lf.dropLast := by
          have hq3 := hq_lf
          rw [← hdl] at hq3
          rcases List.mem_append.1 hq3 with h | h
          · exact h
          · simp only [List.mem_singleton] at h
            exact absurd h hqne
        exact (List.pairwise_append.1 hpw2).2.2 q hqd _ (List.mem_singleton_self _)

/-- Closed instance for C2: the one-posting sample store; the hypotheses
hold by evaluation and the theorem applies. -/
theorem single_account_balances_latest_witness :
    parseAccount "Assets:Cash" = some ⟨.Assets, "Assets:Cash"⟩ ∧
    sampleStore.postings.Pairwise
      (fun p q => p.trx_sequence < q.trx_sequence) ∧
    ∃ rows, singleAccountBalances sampleStore "Assets:Cash" = .ok rows ∧
      (rows.map (fun r => r.balance_commodity)).Nodup ∧
      (∀ c : Currency, c ∈ rows.map (fun r => r.balance_commodity) ↔
        ∃ p ∈ sampleStore.postings,
          p.account = (⟨.Assets, "Assets:Cash"⟩ : Account) ∧
          p.after_amount.currency = c) ∧
      (∀ r ∈ rows, ∃ p ∈ sampleStore.postings,
        p.account = (⟨.Assets, "Assets:Cash"⟩ : Account) ∧
        p.after_amount.currency = r.balance_commodity ∧
        r.balance_number = p.after_amount.number ∧
        ∀ q ∈ sampleStore.postings,
          q.account = (⟨.Assets, "Assets:Cash"⟩ : Account) →
          q.after_amount.currency = r.balance_commodity → q ≠ p →
          postingLexLT q p) :=
  ⟨by decide, by decide,
    single_account_balances_latest sampleStore "Assets:Cash"
      ⟨.Assets, "Assets:Cash"⟩ (by decide) (by decide)⟩

end Zhang
